import Mathlib

set_option maxHeartbeats 1000000

namespace Grep

/-- AST of the regular-expression engine: one constructor per variant of the
Rust enum RegexClass (src/src/regex.rs, lines 5-19). -/
inductive RegexClass where
  | char (c : Char)
  | alphaNum
  | digit
  | wildcard
  | charGroup (set : List Char) (polarity : Bool)
  | oneOrMore (inner : RegexClass)
  | optional (inner : RegexClass)
  | sequence (children : List RegexClass)
  | alternation (branches : List RegexClass)
  | oneOrMorePlaceholder
  | optionalPlaceholder
  | empty

/-- The largest value of the Rust usize type, the seed of the fold computing
the minimum across alternation branches. -/
def USIZE_MAX : Nat := 2 ^ 64 - 1

mutual

/-- RegexClass::min_size (src/src/regex.rs, lines 32-55): smallest number of
characters the node can consume; placeholder variants yield an error. -/
def min_size : RegexClass → Except String Nat
  | .sequence seq => min_size_sum seq 0
  | .oneOrMore pat => min_size pat
  | .alternation seq => min_size_min seq USIZE_MAX
  | .optional _ => .ok 0
  | .wildcard => .ok 1
  | .alphaNum => .ok 1
  | .digit => .ok 1
  | .char _ => .ok 1
  | .charGroup _ _ => .ok 1
  | .empty => .error "placeholder values don\x27t have a size"
  | .optionalPlaceholder => .error "placeholder values don\x27t have a size"
  | .oneOrMorePlaceholder => .error "placeholder values don\x27t have a size"

/-- The fold_ok(0, Add::add) over children of a Sequence: left fold that
stops at the first erroring child. -/
def min_size_sum : List RegexClass → Nat → Except String Nat
  | [], acc => .ok acc
  | p :: rest, acc =>
    match min_size p with
    | .error e => .error e
    | .ok n => min_size_sum rest (acc + n)

/-- The fold_ok(usize::MAX, min) over branches of an Alternation. -/
def min_size_min : List RegexClass → Nat → Except String Nat
  | [], acc => .ok acc
  | p :: rest, acc =>
    match min_size p with
    | .error e => .error e
    | .ok n => min_size_min rest (min acc n)

end

/-- The simple_match! macro (src/src/regex.rs, lines 21-29): a matching leaf
consumes one character, a failing one consumes zero. -/
def simple_match (b : Bool) : Bool × Nat := if b then (true, 1) else (false, 0)

/-- haystack.chars().next().is_some_and(p): test the first character of the
remaining suffix, false on an empty suffix. -/
def headIs (haystack : List Char) (p : Char → Bool) : Bool :=
  match haystack.head? with
  | some c => p c
  | none => false

/-- The character range test of the Digit arm. -/
def isDigitChar (c : Char) : Bool := decide ('0' ≤ c ∧ c ≤ '9')

/-- The character range test of the AlphaNum arm. -/
def isAlphaNumChar (c : Char) : Bool :=
  decide (('0' ≤ c ∧ c ≤ '9') ∨ ('a' ≤ c ∧ c ≤ 'z') ∨ ('A' ≤ c ∧ c ≤ 'Z') ∨ c = '_')

mutual

/-- RegexClass::matchesM (src/src/regex.rs, lines 57-135), evaluated against a
suffix of the haystack.  The Rust loop in the OneOrMore arm does not terminate
when the inner node keeps matching with length 0, so the embedding carries a
fuel counter: a result of none means the computation was still running when
the fuel ran out, and some r is the result the Rust code returns. -/
def matchesM : Nat → RegexClass → List Char → Option (Except String (Bool × Nat))
  | 0, _, _ => none
  | _ + 1, .char pat, haystack =>
    some (.ok (simple_match (headIs haystack (fun c => c == pat))))
  | _ + 1, .digit, haystack =>
    some (.ok (simple_match (headIs haystack isDigitChar)))
  | _ + 1, .alphaNum, haystack =>
    some (.ok (simple_match (headIs haystack isAlphaNumChar)))
  | _ + 1, .wildcard, haystack =>
    some (.ok (simple_match (headIs haystack (fun c => c != '\n'))))
  | _ + 1, .charGroup set polarity, haystack =>
    some (.ok (simple_match (headIs haystack
      (fun c => if set.contains c then polarity else !polarity))))
  | fuel + 1, .oneOrMore pat, haystack =>
    match one_or_more_loop fuel pat haystack 0 with
    | none => none
    | some (.error e) => some (.error e)
    | some (.ok consumed) => some (.ok (decide (consumed > 0), consumed))
  | fuel + 1, .optional pat, haystack =>
    match matchesM fuel pat haystack with
    | none => none
    | some (.error e) => some (.error e)
    | some (.ok (_, length)) => some (.ok (true, length))
  | fuel + 1, .sequence seq, haystack => sequence_loop fuel seq haystack 0
  | fuel + 1, .alternation seq, haystack => alternation_loop fuel seq haystack
  | _ + 1, .empty, _ => some (.error "placeholder class can\x27t match anything")
  | _ + 1, .oneOrMorePlaceholder, _ =>
    some (.error "placeholder class can\x27t match anything")
  | _ + 1, .optionalPlaceholder, _ =>
    some (.error "placeholder class can\x27t match anything")

/-- The loop of the OneOrMore arm: repeatedly match the inner node against
haystack[consumed..], adding up the consumed lengths, until a non-match. -/
def one_or_more_loop : Nat → RegexClass → List Char → Nat → Option (Except String Nat)
  | 0, _, _, _ => none
  | fuel + 1, pat, haystack, consumed =>
    match matchesM fuel pat (haystack.drop consumed) with
    | none => none
    | some (.error e) => some (.error e)
    | some (.ok (m, length)) =>
      if m then one_or_more_loop fuel pat haystack (consumed + length)
      else some (.ok consumed)

/-- The for loop of the Sequence arm: children strictly left to right against
haystack[consumed..]; the first failing child aborts with (false, 0). -/
def sequence_loop : Nat → List RegexClass → List Char → Nat → Option (Except String (Bool × Nat))
  | 0, _, _, _ => none
  | _ + 1, [], _, consumed => some (.ok (true, consumed))
  | fuel + 1, pat :: rest, haystack, consumed =>
    match matchesM fuel pat (haystack.drop consumed) with
    | none => none
    | some (.error e) => some (.error e)
    | some (.ok (m, length)) =>
      if m then sequence_loop fuel rest haystack (consumed + length)
      else some (.ok (false, 0))

/-- The for loop of the Alternation arm: branches tried in order against the
same suffix, first matching branch wins. -/
def alternation_loop : Nat → List RegexClass → List Char → Option (Except String (Bool × Nat))
  | 0, _, _ => none
  | _ + 1, [], _ => some (.ok (false, 0))
  | fuel + 1, pat :: rest, haystack =>
    match matchesM fuel pat haystack with
    | none => none
    | some (.error e) => some (.error e)
    | some (.ok (m, length)) =>
      if m then some (.ok (true, length))
      else alternation_loop fuel rest haystack

end

/-- Unfolding equation for the matcher on OneOrMore nodes. -/
theorem matchesM_oneOrMore_eq (fuel : Nat) (pat : RegexClass) (h : List Char) :
    matchesM (fuel + 1) (.oneOrMore pat) h =
      match one_or_more_loop fuel pat h 0 with
      | none => none
      | some (.error e) => some (.error e)
      | some (.ok consumed) => some (.ok (decide (consumed > 0), consumed)) := rfl

/-- Unfolding equation for the matcher on Optional nodes. -/
theorem matchesM_optional_eq (fuel : Nat) (pat : RegexClass) (h : List Char) :
    matchesM (fuel + 1) (.optional pat) h =
      match matchesM fuel pat h with
      | none => none
      | some (.error e) => some (.error e)
      | some (.ok (_, length)) => some (.ok (true, length)) := rfl

/-- Unfolding equation for the matcher on Sequence nodes. -/
theorem matchesM_sequence_eq (fuel : Nat) (seq : List RegexClass) (h : List Char) :
    matchesM (fuel + 1) (.sequence seq) h = sequence_loop fuel seq h 0 := rfl

/-- Unfolding equation for the matcher on Alternation nodes. -/
theorem matchesM_alternation_eq (fuel : Nat) (seq : List RegexClass) (h : List Char) :
    matchesM (fuel + 1) (.alternation seq) h = alternation_loop fuel seq h := rfl

/-- Unfolding equation for the OneOrMore loop. -/
theorem one_or_more_loop_eq (fuel : Nat) (pat : RegexClass) (h : List Char) (c : Nat) :
    one_or_more_loop (fuel + 1) pat h c =
      match matchesM fuel pat (h.drop c) with
      | none => none
      | some (.error e) => some (.error e)
      | some (.ok (m, length)) =>
        if m then one_or_more_loop fuel pat h (c + length)
        else some (.ok c) := rfl

/-- Unfolding equation for the Sequence loop on a nonempty child list. -/
theorem sequence_loop_cons_eq (fuel : Nat) (pat : RegexClass) (rest : List RegexClass)
    (h : List Char) (c : Nat) :
    sequence_loop (fuel + 1) (pat :: rest) h c =
      match matchesM fuel pat (h.drop c) with
      | none => none
      | some (.error e) => some (.error e)
      | some (.ok (m, length)) =>
        if m then sequence_loop fuel rest h (c + length)
        else some (.ok (false, 0)) := rfl

/-- Unfolding equation for the Alternation loop on a nonempty branch list. -/
theorem alternation_loop_cons_eq (fuel : Nat) (pat : RegexClass) (rest : List RegexClass)
    (h : List Char) :
    alternation_loop (fuel + 1) (pat :: rest) h =
      match matchesM fuel pat h with
      | none => none
      | some (.error e) => some (.error e)
      | some (.ok (m, length)) =>
        if m then some (.ok (true, length))
        else alternation_loop fuel rest h := rfl

/-- len_no_newline (src/src/regex.rs, lines 138-144): the index starts at the
full length and is decremented once per trailing newline character, so the
result is the length minus the number of trailing newlines. -/
def len_no_newline (text : List Char) : Nat :=
  text.length - (text.reverse.takeWhile (fun c => c == '\n')).length

/-- RegexPattern (src/src/regex.rs, lines 146-150). -/
structure RegexPattern where
  at_start : Bool
  until_end : Bool
  sequence : RegexClass

/-- The while-let loop of the bracket-expression arm of parse_fragment
(src/src/regex.rs, lines 163-173): collect members until the closing bracket;
a caret seen while the set is empty flips the polarity, a caret seen with a
nonempty set is pushed as a member without a duplicate check, any other
character is pushed only if not already present. -/
def collect_group : List Char → List Char → Bool → Except String (RegexClass × List Char)
  | [], _, _ => .error "brackets ([ ]) not balanced"
  | chr :: rest, set, polarity =>
    if chr = ']' then .ok (.charGroup set polarity, rest)
    else if chr = '^' then
      if set.isEmpty then collect_group rest set false
      else collect_group rest (set ++ ['^']) polarity
    else
      if set.contains chr then collect_group rest set polarity
      else collect_group rest (set ++ [chr]) polarity

mutual

/-- parse_fragment (src/src/regex.rs, lines 152-197), consuming one lexical
unit from the stream.  The recursion through groups is paid for by a fuel
argument; fuel exhaustion gives the distinguished error "out of fuel", which
never occurs at the fuel budget parse supplies. -/
def parse_fragment : Nat → List Char → Except String (RegexClass × List Char)
  | 0, _ => .error "out of fuel"
  | _ + 1, [] => .ok (.empty, [])
  | fuel + 1, chr :: rest =>
    if chr = '\\' then
      match rest with
      | [] => .error "trailing backlash (\\)"
      | 'd' :: rest2 => .ok (.digit, rest2)
      | 'w' :: rest2 => .ok (.alphaNum, rest2)
      | chr2 :: rest2 => .ok (.char chr2, rest2)
    else if chr = '[' then
      collect_group rest [] true
    else if chr = '(' then
      alternatives_loop fuel rest []
    else if chr = '+' then .ok (.oneOrMorePlaceholder, rest)
    else if chr = '?' then .ok (.optionalPlaceholder, rest)
    else if chr = '.' then .ok (.wildcard, rest)
    else .ok (.char chr, rest)

/-- The loop of the group arm of parse_fragment: fold alternatives with stop
set "|)" until the terminator is a closing parenthesis; any error from the
inner sequence parse is reported as unbalanced parentheses. -/
def alternatives_loop : Nat → List Char → List RegexClass → Except String (RegexClass × List Char)
  | 0, _, _ => .error "out of fuel"
  | fuel + 1, s, alternatives =>
    match parse_sequence fuel s ['|', ')'] [] with
    | .error _ => .error "parentheses not balanced"
    | .ok (seq, stopped_at, rest) =>
      if stopped_at = some ')' then .ok (.alternation (alternatives ++ [seq]), rest)
      else alternatives_loop fuel rest (alternatives ++ [seq])

/-- parse_sequence (src/src/regex.rs, lines 199-235) with the mutable vector
of already-parsed atoms made an accumulator argument.  Returns the folded
Sequence, the stop character hit (if any) and the unconsumed rest. -/
def parse_sequence : Nat → List Char → List Char → List RegexClass →
    Except String (RegexClass × Option Char × List Char)
  | 0, _, _, _ => .error "out of fuel"
  | fuel + 1, s, stop, seq =>
    match parse_fragment fuel s with
    | .error e => .error e
    | .ok (next, rest) =>
      match next with
      | .empty =>
        if stop.length = 0 then .ok (.sequence seq, none, rest)
        else .error "unexpected end of stream"
      | .char chr =>
        if stop.contains chr then .ok (.sequence seq, some chr, rest)
        else parse_sequence fuel rest stop (seq ++ [.char chr])
      | .optionalPlaceholder =>
        match seq.getLast? with
        | none => .error "repetition-operator operand invalid"
        | some pat => parse_sequence fuel rest stop (seq.dropLast ++ [.optional pat])
      | .oneOrMorePlaceholder =>
        match seq.getLast? with
        | none => .error "repetition-operator operand invalid"
        | some pat => parse_sequence fuel rest stop (seq.dropLast ++ [.oneOrMore pat])
      | pat => parse_sequence fuel rest stop (seq ++ [pat])

end

/-- Fuel budget used by parse; generous enough for every input, since each
unit of pattern text costs a bounded number of recursive calls. -/
def parse_fuel (s : List Char) : Nat := 3 * s.length + 10

/-- Stripping of a leading caret by RegexPattern::parse. -/
def strip_start : List Char → Bool × List Char
  | '^' :: rest => (true, rest)
  | pattern => (false, pattern)

/-- Stripping of a trailing dollar by RegexPattern::parse. -/
def strip_end (pattern : List Char) : Bool × List Char :=
  if pattern.getLast? = some '$' then (true, pattern.dropLast) else (false, pattern)

/-- RegexPattern::parse (src/src/regex.rs, lines 238-257). -/
def RegexPattern.parse (pattern : List Char) : Except String RegexPattern :=
  let stripped := strip_start pattern
  let stripped2 := strip_end stripped.2
  match parse_sequence (parse_fuel stripped2.2) stripped2.2 [] [] with
  | .error e => .error e
  | .ok (sequence, _, _) => .ok ⟨stripped.1, stripped2.1, sequence⟩

/-- The offset scan of is_contained_in (src/src/regex.rs, lines 275-283):
offsets are tried in increasing order; a match is accepted unless the pattern
is end-anchored and the consumed length differs from hlen - offset; remaining
counts how many further offsets may still be tried. -/
def scan_loop (fuel : Nat) (root : RegexClass) (until_end : Bool) (haystack : List Char)
    (hlen : Nat) : Nat → Nat → Option (Except String Bool)
  | offset, 0 =>
    match matchesM fuel root (haystack.drop offset) with
    | none => none
    | some (.error e) => some (.error e)
    | some (.ok (m, length)) =>
      if m && (!until_end || length == hlen - offset) then some (.ok true)
      else some (.ok false)
  | offset, remaining + 1 =>
    match matchesM fuel root (haystack.drop offset) with
    | none => none
    | some (.error e) => some (.error e)
    | some (.ok (m, length)) =>
      if m && (!until_end || length == hlen - offset) then some (.ok true)
      else scan_loop fuel root until_end haystack hlen (offset + 1) remaining

/-- RegexPattern::is_contained_in (src/src/regex.rs, lines 259-285).  The
fuel argument only feeds the matcher; none means the Rust call was still
running (inside a OneOrMore loop) when the fuel ran out. -/
def RegexPattern.is_contained_in (fuel : Nat) (self : RegexPattern) (haystack : List Char) :
    Option (Except String Bool) :=
  let hlen := len_no_newline haystack
  match min_size self.sequence with
  | .error e => some (.error e)
  | .ok ms =>
    if ms > hlen then some (.ok false)
    else if self.at_start then
      match matchesM fuel self.sequence haystack with
      | none => none
      | some (.error e) => some (.error e)
      | some (.ok (m, length)) =>
        if self.until_end then some (.ok (m && length == hlen))
        else some (.ok m)
    else scan_loop fuel self.sequence self.until_end haystack hlen 0 (hlen - ms)

/-- The matcher returns result r on a haystack when some fuel budget makes the
computation finish with r; by fuel monotonicity this result is unique. -/
def Returns (pat : RegexPattern) (haystack : List Char) (r : Except String Bool) : Prop :=
  ∃ fuel, RegexPattern.is_contained_in fuel pat haystack = some r

/-- One step of fuel monotonicity for the matcher and its three loops: a
computation that finishes within some fuel budget finishes with the same
result when given one more unit. -/
theorem matches_step (fuel : Nat) :
    (∀ node h r, matchesM fuel node h = some r → matchesM (fuel + 1) node h = some r) ∧
    (∀ pat h c r, one_or_more_loop fuel pat h c = some r →
      one_or_more_loop (fuel + 1) pat h c = some r) ∧
    (∀ seq h c r, sequence_loop fuel seq h c = some r →
      sequence_loop (fuel + 1) seq h c = some r) ∧
    (∀ seq h r, alternation_loop fuel seq h = some r →
      alternation_loop (fuel + 1) seq h = some r) := by
  induction fuel with
  | zero =>
    refine ⟨?_, ?_, ?_, ?_⟩ <;> intros <;>
      simp [matchesM, one_or_more_loop, sequence_loop, alternation_loop] at *
  | succ f ih =>
    obtain ⟨ihm, iho, ihs, iha⟩ := ih
    refine ⟨?_, ?_, ?_, ?_⟩
    · intro node h r hr
      cases node with
      | char c => exact hr
      | alphaNum => exact hr
      | digit => exact hr
      | wildcard => exact hr
      | charGroup set polarity => exact hr
      | empty => exact hr
      | oneOrMorePlaceholder => exact hr
      | optionalPlaceholder => exact hr
      | sequence seq => exact ihs _ _ _ _ hr
      | alternation seq => exact iha _ _ _ hr
      | oneOrMore pat =>
        show (match one_or_more_loop (f + 1) pat h 0 with
          | none => none
          | some (.error e) => some (.error e)
          | some (.ok consumed) => some (.ok (decide (consumed > 0), consumed))) = some r
        cases ho : one_or_more_loop f pat h 0 with
        | none =>
          rw [show matchesM (f + 1) (.oneOrMore pat) h =
            (match one_or_more_loop f pat h 0 with
              | none => none
              | some (.error e) => some (.error e)
              | some (.ok consumed) => some (.ok (decide (consumed > 0), consumed))) from rfl,
            ho] at hr
          exact absurd hr (by simp)
        | some v =>
          rw [iho _ _ _ _ ho]
          rw [show matchesM (f + 1) (.oneOrMore pat) h =
            (match one_or_more_loop f pat h 0 with
              | none => none
              | some (.error e) => some (.error e)
              | some (.ok consumed) => some (.ok (decide (consumed > 0), consumed))) from rfl,
            ho] at hr
          exact hr
      | optional pat =>
        show (match matchesM (f + 1) pat h with
          | none => none
          | some (.error e) => some (.error e)
          | some (.ok (_, length)) => some (.ok (true, length))) = some r
        cases hm : matchesM f pat h with
        | none =>
          rw [show matchesM (f + 1) (.optional pat) h =
            (match matchesM f pat h with
              | none => none
              | some (.error e) => some (.error e)
              | some (.ok (_, length)) => some (.ok (true, length))) from rfl, hm] at hr
          exact absurd hr (by simp)
        | some v =>
          rw [ihm _ _ _ hm]
          rw [show matchesM (f + 1) (.optional pat) h =
            (match matchesM f pat h with
              | none => none
              | some (.error e) => some (.error e)
              | some (.ok (_, length)) => some (.ok (true, length))) from rfl, hm] at hr
          exact hr
    · intro pat h c r hr
      show (match matchesM (f + 1) pat (h.drop c) with
        | none => none
        | some (.error e) => some (.error e)
        | some (.ok (m, length)) =>
          if m then one_or_more_loop (f + 1) pat h (c + length) else some (.ok c)) = some r
      rw [show one_or_more_loop (f + 1) pat h c =
        (match matchesM f pat (h.drop c) with
          | none => none
          | some (.error e) => some (.error e)
          | some (.ok (m, length)) =>
            if m then one_or_more_loop f pat h (c + length) else some (.ok c)) from rfl] at hr
      cases hm : matchesM f pat (h.drop c) with
      | none => rw [hm] at hr; exact absurd hr (by simp)
      | some v =>
        rw [hm] at hr
        rw [ihm _ _ _ hm]
        cases v with
        | error e => exact hr
        | ok p =>
          obtain ⟨m, length⟩ := p
          cases m with
          | false => exact hr
          | true => exact iho _ _ _ _ hr
    · intro seq h c r hr
      cases seq with
      | nil => exact hr
      | cons pat rest =>
        show (match matchesM (f + 1) pat (h.drop c) with
          | none => none
          | some (.error e) => some (.error e)
          | some (.ok (m, length)) =>
            if m then sequence_loop (f + 1) rest h (c + length)
            else some (.ok (false, 0))) = some r
        rw [show sequence_loop (f + 1) (pat :: rest) h c =
          (match matchesM f pat (h.drop c) with
            | none => none
            | some (.error e) => some (.error e)
            | some (.ok (m, length)) =>
              if m then sequence_loop f rest h (c + length)
              else some (.ok (false, 0))) from rfl] at hr
        cases hm : matchesM f pat (h.drop c) with
        | none => rw [hm] at hr; exact absurd hr (by simp)
        | some v =>
          rw [hm] at hr
          rw [ihm _ _ _ hm]
          cases v with
          | error e => exact hr
          | ok p =>
            obtain ⟨m, length⟩ := p
            cases m with
            | false => exact hr
            | true => exact ihs _ _ _ _ hr
    · intro seq h r hr
      cases seq with
      | nil => exact hr
      | cons pat rest =>
        show (match matchesM (f + 1) pat h with
          | none => none
          | some (.error e) => some (.error e)
          | some (.ok (m, length)) =>
            if m then some (.ok (true, length))
            else alternation_loop (f + 1) rest h) = some r
        rw [show alternation_loop (f + 1) (pat :: rest) h =
          (match matchesM f pat h with
            | none => none
            | some (.error e) => some (.error e)
            | some (.ok (m, length)) =>
              if m then some (.ok (true, length))
              else alternation_loop f rest h) from rfl] at hr
        cases hm : matchesM f pat h with
        | none => rw [hm] at hr; exact absurd hr (by simp)
        | some v =>
          rw [hm] at hr
          rw [ihm _ _ _ hm]
          cases v with
          | error e => exact hr
          | ok p =>
            obtain ⟨m, length⟩ := p
            cases m with
            | false => exact iha _ _ _ hr
            | true => exact hr

/-- Fuel monotonicity of the matcher. -/
theorem matchesM_mono {fuel fuel2 : Nat} (hle : fuel ≤ fuel2) :
    ∀ node h r, matchesM fuel node h = some r → matchesM fuel2 node h = some r := by
  induction hle with
  | refl => exact fun _ _ _ hr => hr
  | step _ ih => exact fun node h r hr => (matches_step _).1 _ _ _ (ih node h r hr)

/-- Unfolding equation of the offset scan. -/
theorem scan_loop_eq (fuel : Nat) (root : RegexClass) (ue : Bool) (h : List Char)
    (hlen offset remaining : Nat) :
    scan_loop fuel root ue h hlen offset remaining =
      match matchesM fuel root (h.drop offset) with
      | none => none
      | some (.error e) => some (.error e)
      | some (.ok (m, length)) =>
        if m && (!ue || length == hlen - offset) then some (.ok true)
        else
          match remaining with
          | 0 => some (.ok false)
          | r + 1 => scan_loop fuel root ue h hlen (offset + 1) r := by
  cases remaining with
  | zero => rfl
  | succ r => rfl

/-- Fuel monotonicity of the offset scan. -/
theorem scan_loop_mono {fuel fuel2 : Nat} (hle : fuel ≤ fuel2) (root : RegexClass)
    (ue : Bool) (h : List Char) (hlen : Nat) :
    ∀ remaining offset r, scan_loop fuel root ue h hlen offset remaining = some r →
      scan_loop fuel2 root ue h hlen offset remaining = some r := by
  intro remaining
  induction remaining with
  | zero =>
    intro offset r hr
    rw [scan_loop_eq] at hr ⊢
    cases hm : matchesM fuel root (h.drop offset) with
    | none => rw [hm] at hr; exact absurd hr (by simp)
    | some v =>
      rw [hm] at hr
      rw [matchesM_mono hle _ _ _ hm]
      exact hr
  | succ rem ih =>
    intro offset r hr
    rw [scan_loop_eq] at hr ⊢
    cases hm : matchesM fuel root (h.drop offset) with
    | none => rw [hm] at hr; exact absurd hr (by simp)
    | some v =>
      rw [hm] at hr
      rw [matchesM_mono hle _ _ _ hm]
      cases v with
      | error e => exact hr
      | ok p =>
        obtain ⟨m, n⟩ := p
        cases hcond : (m && (!ue || n == hlen - offset)) with
        | true => simp only [hcond, if_true] at hr ⊢; exact hr
        | false =>
          simp only [hcond, Bool.false_eq_true, if_false] at hr ⊢
          exact ih _ _ hr

/-- Unfolding equation of the containment check. -/
theorem is_contained_in_eq (fuel : Nat) (self : RegexPattern) (haystack : List Char) :
    RegexPattern.is_contained_in fuel self haystack =
      match min_size self.sequence with
      | .error e => some (.error e)
      | .ok ms =>
        if ms > len_no_newline haystack then some (.ok false)
        else if self.at_start then
          match matchesM fuel self.sequence haystack with
          | none => none
          | some (.error e) => some (.error e)
          | some (.ok (m, length)) =>
            if self.until_end then some (.ok (m && length == len_no_newline haystack))
            else some (.ok m)
        else scan_loop fuel self.sequence self.until_end haystack (len_no_newline haystack) 0
          (len_no_newline haystack - ms) := rfl

/-- Fuel monotonicity of the containment check. -/
theorem is_contained_in_mono {fuel fuel2 : Nat} (hle : fuel ≤ fuel2) (pat : RegexPattern)
    (h : List Char) (r : Except String Bool)
    (hr : RegexPattern.is_contained_in fuel pat h = some r) :
    RegexPattern.is_contained_in fuel2 pat h = some r := by
  rw [is_contained_in_eq] at hr ⊢
  cases hms : min_size pat.sequence with
  | error e => rw [hms] at hr; exact hr
  | ok ms =>
    rw [hms] at hr
    replace hr : (if ms > len_no_newline h then some (Except.ok false)
        else if pat.at_start = true then
          match matchesM fuel pat.sequence h with
          | none => none
          | some (Except.error e) => some (Except.error e)
          | some (Except.ok (m, length)) =>
            if pat.until_end = true then some (Except.ok (m && length == len_no_newline h))
            else some (Except.ok m)
        else scan_loop fuel pat.sequence pat.until_end h (len_no_newline h) 0
          (len_no_newline h - ms)) = some r := hr
    show (if ms > len_no_newline h then some (Except.ok false)
        else if pat.at_start = true then
          match matchesM fuel2 pat.sequence h with
          | none => none
          | some (Except.error e) => some (Except.error e)
          | some (Except.ok (m, length)) =>
            if pat.until_end = true then some (Except.ok (m && length == len_no_newline h))
            else some (Except.ok m)
        else scan_loop fuel2 pat.sequence pat.until_end h (len_no_newline h) 0
          (len_no_newline h - ms)) = some r
    by_cases hgt : ms > len_no_newline h
    · rw [if_pos hgt] at hr ⊢; exact hr
    · rw [if_neg hgt] at hr ⊢
      cases hat : pat.at_start with
      | true =>
        rw [hat] at hr
        rw [if_pos rfl] at hr ⊢
        cases hm : matchesM fuel pat.sequence h with
        | none => rw [hm] at hr; exact absurd hr (by simp)
        | some v =>
          rw [hm] at hr
          rw [matchesM_mono hle _ _ _ hm]
          exact hr
      | false =>
        rw [hat] at hr
        rw [if_neg (by simp)] at hr ⊢
        exact scan_loop_mono hle _ _ _ _ _ _ _ hr

/-- The result of the containment check is unique: two finished runs agree. -/
theorem returns_unique {pat : RegexPattern} {h : List Char} {r r2 : Except String Bool}
    (h1 : Returns pat h r) (h2 : Returns pat h r2) : r = r2 := by
  obtain ⟨f1, e1⟩ := h1
  obtain ⟨f2, e2⟩ := h2
  have e1m := is_contained_in_mono (Nat.le_max_left f1 f2) pat h r e1
  have e2m := is_contained_in_mono (Nat.le_max_right f1 f2) pat h r2 e2
  rw [e1m] at e2m
  exact Option.some_inj.mp e2m

/-- C1: parsing "a+a" yields Sequence [OneOrMore (Char a), Char a]; on the
haystack "aaa" the containment check finishes with Ok(false) (shown at a
concrete fuel budget, and every other fuel budget either has not finished yet
or gives the same answer), because the greedy OneOrMore consumes all three
characters and the Sequence then aborts without retrying shorter lengths. -/
theorem C1_greedy_non_backtracking :
    RegexPattern.parse ['a', '+', 'a'] =
      .ok ⟨false, false, .sequence [.oneOrMore (.char 'a'), .char 'a']⟩ ∧
    RegexPattern.is_contained_in 10
      ⟨false, false, .sequence [.oneOrMore (.char 'a'), .char 'a']⟩ ['a', 'a', 'a'] =
      some (.ok false) ∧
    ∀ fuel,
      RegexPattern.is_contained_in fuel
        ⟨false, false, .sequence [.oneOrMore (.char 'a'), .char 'a']⟩ ['a', 'a', 'a'] = none ∨
      RegexPattern.is_contained_in fuel
        ⟨false, false, .sequence [.oneOrMore (.char 'a'), .char 'a']⟩ ['a', 'a', 'a'] =
        some (.ok false) := by
  refine ⟨rfl, rfl, ?_⟩
  intro fuel
  cases hr : RegexPattern.is_contained_in fuel
      ⟨false, false, .sequence [.oneOrMore (.char 'a'), .char 'a']⟩ ['a', 'a', 'a'] with
  | none => exact Or.inl rfl
  | some r =>
    right
    rcases Nat.le_total fuel 10 with hle | hle
    · have h10 := is_contained_in_mono hle _ _ _ hr
      have h10v : RegexPattern.is_contained_in 10
          ⟨false, false, .sequence [.oneOrMore (.char 'a'), .char 'a']⟩ ['a', 'a', 'a'] =
          some (.ok false) := rfl
      rw [h10v] at h10
      exact h10.symm
    · have hv := is_contained_in_mono hle
          ⟨false, false, .sequence [.oneOrMore (.char 'a'), .char 'a']⟩ ['a', 'a', 'a']
          (.ok false) rfl
      rw [hr] at hv
      exact hv

/-- Inner node of the diverging pattern: Optional always reports a match, with
length 0 when the character is absent; on the empty haystack the result is
(true, 0) whenever the fuel suffices. -/
theorem optional_char_empty (f : Nat) :
    matchesM f (.optional (.char 'a')) [] = none ∨
      matchesM f (.optional (.char 'a')) [] = some (.ok (true, 0)) := by
  rcases f with _ | _ | n
  · exact Or.inl rfl
  · exact Or.inl rfl
  · exact Or.inr rfl

/-- The OneOrMore loop over Optional (Char a) on the empty haystack makes no
progress: the inner match keeps succeeding with length 0, so the loop spins
until the fuel runs out, for every starting consumed count. -/
theorem one_or_more_optional_diverges :
    ∀ f c, one_or_more_loop f (.optional (.char 'a')) [] c = none := by
  intro f
  induction f with
  | zero => intro c; rfl
  | succ n ih =>
    intro c
    rw [one_or_more_loop_eq, List.drop_nil]
    rcases optional_char_empty n with hm | hm
    · rw [hm]
    · rw [hm]
      exact ih (c + 0)

/-- The whole root Sequence [OneOrMore (Optional (Char a))] never finishes on
the empty haystack, whatever the fuel. -/
theorem root_optional_diverges :
    ∀ f, matchesM f (.sequence [.oneOrMore (.optional (.char 'a'))]) [] = none := by
  intro f
  rcases f with _ | n
  · rfl
  · rw [matchesM_sequence_eq]
    rcases n with _ | m
    · rfl
    · rw [sequence_loop_cons_eq, List.drop_nil]
      rcases m with _ | k
      · rfl
      · rw [matchesM_oneOrMore_eq, one_or_more_optional_diverges k 0]

/-- C2: the matcher is not total on parser-produced ASTs.  The pattern "a?+"
parses successfully to Sequence [OneOrMore (Optional (Char a))], yet on the
empty haystack the containment check never finishes: the OneOrMore loop keeps
consuming length-0 matches of its inner Optional, so for every fuel budget the
embedded computation is still running (result none). -/
theorem C2_one_or_more_divergence :
    RegexPattern.parse ['a', '?', '+'] =
      .ok ⟨false, false, .sequence [.oneOrMore (.optional (.char 'a'))]⟩ ∧
    ∀ fuel, RegexPattern.is_contained_in fuel
      ⟨false, false, .sequence [.oneOrMore (.optional (.char 'a'))]⟩ [] = none := by
  refine ⟨rfl, ?_⟩
  intro fuel
  show scan_loop fuel (.sequence [.oneOrMore (.optional (.char 'a'))]) false [] 0 0 0 = none
  rw [scan_loop_eq, List.drop_nil, root_optional_diverges fuel]

/-- Unfolding equation of parse_sequence at positive fuel. -/
theorem parse_sequence_eq (fuel : Nat) (s stop : List Char) (seq : List RegexClass) :
    parse_sequence (fuel + 1) s stop seq =
      match parse_fragment fuel s with
      | .error e => .error e
      | .ok (next, rest) =>
        match next with
        | .empty =>
          if stop.length = 0 then .ok (.sequence seq, none, rest)
          else .error "unexpected end of stream"
        | .char chr =>
          if stop.contains chr then .ok (.sequence seq, some chr, rest)
          else parse_sequence fuel rest stop (seq ++ [.char chr])
        | .optionalPlaceholder =>
          match seq.getLast? with
          | none => .error "repetition-operator operand invalid"
          | some pat => parse_sequence fuel rest stop (seq.dropLast ++ [.optional pat])
        | .oneOrMorePlaceholder =>
          match seq.getLast? with
          | none => .error "repetition-operator operand invalid"
          | some pat => parse_sequence fuel rest stop (seq.dropLast ++ [.oneOrMore pat])
        | pat => parse_sequence fuel rest stop (seq ++ [pat]) := rfl

/-- Unfolding equation of the alternatives loop at positive fuel. -/
theorem alternatives_loop_eq (fuel : Nat) (s : List Char) (alternatives : List RegexClass) :
    alternatives_loop (fuel + 1) s alternatives =
      match parse_sequence fuel s ['|', ')'] [] with
      | .error _ => .error "parentheses not balanced"
      | .ok (seq, stopped_at, rest) =>
        if stopped_at = some ')' then .ok (.alternation (alternatives ++ [seq]), rest)
        else alternatives_loop fuel rest (alternatives ++ [seq]) := rfl

/-- C7: each of the four malformed patterns is rejected by the parser with the
error message of the bail it hits: trailing backslash, unbalanced brackets,
unbalanced parentheses (the inner end-of-stream error of "(a|b" is swallowed
by the group loop and reported as unbalanced parentheses), and a quantifier
with no preceding atom. -/
theorem C7_malformed_inputs :
    RegexPattern.parse ['a', '\\'] = .error "trailing backlash (\\)" ∧
    RegexPattern.parse ['[', 'a', 'b', 'c'] = .error "brackets ([ ]) not balanced" ∧
    RegexPattern.parse ['(', 'a', '|', 'b'] = .error "parentheses not balanced" ∧
    RegexPattern.parse ['+'] = .error "repetition-operator operand invalid" :=
  ⟨rfl, rfl, rfl, rfl⟩

/-- C3 counterexample: parsing "[^^]" does NOT put the second caret into the
set.  The caret branch of the bracket loop tests whether the set collected so
far is empty, not whether the caret directly follows the opening bracket, so
the second caret of "[^^]" (set still empty) merely re-negates the polarity:
the result is a negated CharGroup with an empty member set. -/
theorem C3_counterexample :
    RegexPattern.parse ['[', '^', '^', ']'] =
      .ok ⟨false, false, .sequence [.charGroup [] false]⟩ ∧
    ¬ ('^' ∈ ([] : List Char)) :=
  ⟨rfl, by simp⟩

/-- C3 amended: a caret seen while the collected set is EMPTY sets the
polarity to negated (hence the first caret of a bracket expression, and any
further carets before the first ordinary member); a caret seen once the set is
nonempty is appended as a literal member.  Instantiated shape: for any member
character c (not the closing bracket, not a caret), "[^c^]" parses to a
negated CharGroup with member set [c, caret]. -/
theorem C3_caret_amended (c : Char) (h1 : c ≠ ']') (h2 : c ≠ '^') :
    RegexPattern.parse ['[', '^', c, '^', ']'] =
      .ok ⟨false, false, .sequence [.charGroup [c, '^'] false]⟩ := by
  have hc : collect_group (c :: ['^', ']']) [] false =
      .ok (.charGroup [c, '^'] false, []) := by
    show (if c = ']' then Except.ok (RegexClass.charGroup [] false, ['^', ']'])
      else if c = '^' then
        (if ([] : List Char).isEmpty then collect_group ['^', ']'] [] false
         else collect_group ['^', ']'] ([] ++ ['^']) false)
      else if ([] : List Char).contains c then collect_group ['^', ']'] [] false
      else collect_group ['^', ']'] ([] ++ [c]) false) =
      Except.ok (RegexClass.charGroup [c, '^'] false, [])
    rw [if_neg h1, if_neg h2]
    rfl
  have hfrag : parse_fragment 24 ['[', '^', c, '^', ']'] =
      .ok (.charGroup [c, '^'] false, []) := by
    show collect_group (c :: ['^', ']']) [] false = _
    exact hc
  show (match parse_sequence 25 ['[', '^', c, '^', ']'] [] [] with
    | Except.error e => Except.error e
    | Except.ok (s, _, _) => Except.ok (⟨false, false, s⟩ : RegexPattern)) =
    Except.ok ⟨false, false, RegexClass.sequence [RegexClass.charGroup [c, '^'] false]⟩
  rw [show (25 : Nat) = 24 + 1 from rfl, parse_sequence_eq, hfrag]
  rfl

/-- Witness for the amended C3 statement at the concrete member character a:
"[^a^]" parses to a negated CharGroup with member set [a, caret]. -/
theorem C3_caret_amended_witness :
    ('a' ≠ ']' ∧ 'a' ≠ '^') ∧
    RegexPattern.parse ['[', '^', 'a', '^', ']'] =
      .ok ⟨false, false, .sequence [.charGroup ['a', '^'] false]⟩ :=
  ⟨⟨by decide, by decide⟩, C3_caret_amended 'a' (by decide) (by decide)⟩

/-- C9 counterexample: parsing "[a^^]" produces a CharGroup whose member set
[a, caret, caret] contains a duplicate: the caret branch of the bracket loop
pushes without the membership check the ordinary branch performs. -/
theorem C9_counterexample :
    RegexPattern.parse ['[', 'a', '^', '^', ']'] =
      .ok ⟨false, false, .sequence [.charGroup ['a', '^', '^'] true]⟩ ∧
    ¬ (['a', '^', '^'] : List Char).Nodup :=
  ⟨rfl, by decide⟩

/-- Unfolding equation of collect_group on the empty stream. -/
theorem collect_group_nil_eq (set : List Char) (polarity : Bool) :
    collect_group [] set polarity = .error "brackets ([ ]) not balanced" := rfl

/-- Unfolding equation of collect_group on a nonempty stream. -/
theorem collect_group_cons_eq (chr : Char) (rest set : List Char) (polarity : Bool) :
    collect_group (chr :: rest) set polarity =
      if chr = ']' then .ok (.charGroup set polarity, rest)
      else if chr = '^' then
        (if set.isEmpty then collect_group rest set false
         else collect_group rest (set ++ ['^']) polarity)
      else if set.contains chr then collect_group rest set polarity
      else collect_group rest (set ++ [chr]) polarity := rfl

/-- Unfolding equation of parse_fragment on a nonempty stream. -/
theorem parse_fragment_cons_eq (fuel : Nat) (chr : Char) (rest : List Char) :
    parse_fragment (fuel + 1) (chr :: rest) =
      if chr = '\\' then
        match rest with
        | [] => .error "trailing backlash (\\)"
        | 'd' :: rest2 => .ok (.digit, rest2)
        | 'w' :: rest2 => .ok (.alphaNum, rest2)
        | chr2 :: rest2 => .ok (.char chr2, rest2)
      else if chr = '[' then collect_group rest [] true
      else if chr = '(' then alternatives_loop fuel rest []
      else if chr = '+' then .ok (.oneOrMorePlaceholder, rest)
      else if chr = '?' then .ok (.optionalPlaceholder, rest)
      else if chr = '.' then .ok (.wildcard, rest)
      else .ok (.char chr, rest) := rfl

mutual

/-- No Empty or quantifier-placeholder variant occurs anywhere in the tree. -/
def no_placeholders : RegexClass → Prop
  | .char _ => True
  | .alphaNum => True
  | .digit => True
  | .wildcard => True
  | .charGroup _ _ => True
  | .oneOrMore p => no_placeholders p
  | .optional p => no_placeholders p
  | .sequence l => no_placeholders_list l
  | .alternation l => no_placeholders_list l
  | .empty => False
  | .oneOrMorePlaceholder => False
  | .optionalPlaceholder => False

/-- All members of a child list are placeholder-free. -/
def no_placeholders_list : List RegexClass → Prop
  | [] => True
  | p :: rest => no_placeholders p ∧ no_placeholders_list rest

end

mutual

/-- Every CharGroup in the tree owns a member set in which the characters
other than the caret are pairwise distinct (the caret itself may repeat, see
the C9 counterexample). -/
def groups_dedup : RegexClass → Prop
  | .charGroup set _ => (set.filter (fun c => c != '^')).Nodup
  | .oneOrMore p => groups_dedup p
  | .optional p => groups_dedup p
  | .sequence l => groups_dedup_list l
  | .alternation l => groups_dedup_list l
  | .char _ => True
  | .alphaNum => True
  | .digit => True
  | .wildcard => True
  | .empty => True
  | .oneOrMorePlaceholder => True
  | .optionalPlaceholder => True

/-- All members of a child list satisfy the CharGroup dedup property. -/
def groups_dedup_list : List RegexClass → Prop
  | [] => True
  | p :: rest => groups_dedup p ∧ groups_dedup_list rest

end

/-- Membership form of the list version of no_placeholders. -/
theorem no_placeholders_list_iff :
    ∀ l, no_placeholders_list l ↔ ∀ x ∈ l, no_placeholders x := by
  intro l
  induction l with
  | nil => simp [no_placeholders_list]
  | cons p rest ih => simp [no_placeholders_list, ih]

/-- Membership form of the list version of groups_dedup. -/
theorem groups_dedup_list_iff :
    ∀ l, groups_dedup_list l ↔ ∀ x ∈ l, groups_dedup x := by
  intro l
  induction l with
  | nil => simp [groups_dedup_list]
  | cons p rest ih => simp [groups_dedup_list, ih]

/-- The bracket-expression loop yields a CharGroup, and it preserves the
invariant that non-caret members are pairwise distinct. -/
theorem collect_group_invariant :
    ∀ s set pol res rest, collect_group s set pol = .ok (res, rest) →
      ∃ set2 pol2, res = .charGroup set2 pol2 ∧
        ((set.filter (fun c => c != '^')).Nodup →
          (set2.filter (fun c => c != '^')).Nodup) := by
  intro s
  induction s with
  | nil =>
    intro set pol res rest h
    rw [collect_group_nil_eq] at h
    exact absurd h (by simp)
  | cons chr srest ih =>
    intro set pol res rest h
    rw [collect_group_cons_eq] at h
    by_cases h1 : chr = ']'
    · rw [if_pos h1] at h
      injection h with hp
      cases hp
      exact ⟨set, pol, rfl, fun hn => hn⟩
    · rw [if_neg h1] at h
      by_cases h2 : chr = '^'
      · rw [if_pos h2] at h
        by_cases h3 : set.isEmpty
        · rw [if_pos h3] at h
          exact ih _ _ _ _ h
        · rw [if_neg h3] at h
          obtain ⟨set2, pol2, hres, himp⟩ := ih _ _ _ _ h
          refine ⟨set2, pol2, hres, fun hn => himp ?_⟩
          rw [List.filter_append]
          simpa using hn
      · rw [if_neg h2] at h
        by_cases h4 : set.contains chr
        · rw [if_pos h4] at h
          exact ih _ _ _ _ h
        · rw [if_neg h4] at h
          obtain ⟨set2, pol2, hres, himp⟩ := ih _ _ _ _ h
          refine ⟨set2, pol2, hres, fun hn => himp ?_⟩
          rw [List.filter_append]
          have hchr : chr ∉ set := by
            intro hmem
            exact h4 (by simpa using hmem)
          have hfil : List.filter (fun c => c != '^') [chr] = [chr] := by
            have hb : (chr != '^') = true := by simp [h2]
            simp [List.filter, hb]
          rw [hfil]
          refine List.Nodup.append hn (by simp) ?_
          intro a ha hb
          simp at hb
          subst hb
          exact hchr (List.mem_of_mem_filter ha)

/-- A successful fragment is either a well-formed subtree or one of the three
transient sentinels that parse_sequence handles specially. -/
def frag_ok (c : RegexClass) : Prop :=
  (no_placeholders c ∧ groups_dedup c) ∨ c = .empty ∨ c = .oneOrMorePlaceholder ∨
    c = .optionalPlaceholder

/-- The parser invariant, by induction over the fuel: fragments are
well-formed or sentinels; the alternatives loop builds a well-formed
Alternation from well-formed accumulated branches; sequence folding builds a
Sequence of well-formed children from well-formed accumulated atoms. -/
theorem parser_inv (fuel : Nat) :
    (∀ s c rest, parse_fragment fuel s = .ok (c, rest) → frag_ok c) ∧
    (∀ s alts res rest, alternatives_loop fuel s alts = .ok (res, rest) →
      (∀ a ∈ alts, no_placeholders a ∧ groups_dedup a) →
      no_placeholders res ∧ groups_dedup res) ∧
    (∀ s stop acc t st rest, parse_sequence fuel s stop acc = .ok (t, st, rest) →
      (∀ x ∈ acc, no_placeholders x ∧ groups_dedup x) →
      ∃ l, t = .sequence l ∧ ∀ x ∈ l, no_placeholders x ∧ groups_dedup x) := by
  induction fuel with
  | zero =>
    refine ⟨?_, ?_, ?_⟩
    · intro s c rest h
      rw [show parse_fragment 0 s = Except.error "out of fuel" from rfl] at h
      exact absurd h (by simp)
    · intro s alts res rest h
      rw [show alternatives_loop 0 s alts = Except.error "out of fuel" from rfl] at h
      exact absurd h (by simp)
    · intro s stop acc t st rest h
      rw [show parse_sequence 0 s stop acc = Except.error "out of fuel" from rfl] at h
      exact absurd h (by simp)
  | succ f ih =>
    obtain ⟨ihf, iha, ihs⟩ := ih
    refine ⟨?_, ?_, ?_⟩
    · intro s c rest h
      cases s with
      | nil =>
        rw [show parse_fragment (f + 1) ([] : List Char) =
          Except.ok (RegexClass.empty, ([] : List Char)) from rfl] at h
        injection h with hp
        cases hp
        exact Or.inr (Or.inl rfl)
      | cons chr rest2 =>
        rw [parse_fragment_cons_eq] at h
        by_cases hb : chr = '\\'
        · rw [if_pos hb] at h
          cases rest2 with
          | nil => exact absurd h (by simp)
          | cons c2 r2 =>
            split at h
            · exact absurd h (by simp)
            · injection h with hp; cases hp; exact Or.inl ⟨trivial, trivial⟩
            · injection h with hp; cases hp; exact Or.inl ⟨trivial, trivial⟩
            · injection h with hp; cases hp; exact Or.inl ⟨trivial, trivial⟩
        · rw [if_neg hb] at h
          by_cases hbr : chr = '['
          · rw [if_pos hbr] at h
            obtain ⟨set2, pol2, hres, himp⟩ := collect_group_invariant _ _ _ _ _ h
            subst hres
            exact Or.inl ⟨trivial, himp (by simp)⟩
          · rw [if_neg hbr] at h
            by_cases hpa : chr = '('
            · rw [if_pos hpa] at h
              exact Or.inl (iha _ _ _ _ h (by simp))
            · rw [if_neg hpa] at h
              by_cases hpl : chr = '+'
              · rw [if_pos hpl] at h
                injection h with hp
                cases hp
                exact Or.inr (Or.inr (Or.inl rfl))
              · rw [if_neg hpl] at h
                by_cases hq : chr = '?'
                · rw [if_pos hq] at h
                  injection h with hp
                  cases hp
                  exact Or.inr (Or.inr (Or.inr rfl))
                · rw [if_neg hq] at h
                  by_cases hd : chr = '.'
                  · rw [if_pos hd] at h
                    injection h with hp
                    cases hp
                    exact Or.inl ⟨trivial, trivial⟩
                  · rw [if_neg hd] at h
                    injection h with hp
                    cases hp
                    exact Or.inl ⟨trivial, trivial⟩
    · intro s alts res rest h halts
      rw [alternatives_loop_eq] at h
      cases hps : parse_sequence f s ['|', ')'] [] with
      | error e => rw [hps] at h; exact absurd h (by simp)
      | ok v =>
        rw [hps] at h
        obtain ⟨seq, stopped, rest2⟩ := v
        replace h : (if stopped = some ')' then
            Except.ok (RegexClass.alternation (alts ++ [seq]), rest2)
          else alternatives_loop f rest2 (alts ++ [seq])) = Except.ok (res, rest) := h
        obtain ⟨l, hseq, hl⟩ := ihs _ _ _ _ _ _ hps (by simp)
        have hseqok : no_placeholders seq ∧ groups_dedup seq := by
          subst hseq
          exact ⟨(no_placeholders_list_iff l).mpr (fun x hx => (hl x hx).1),
            (groups_dedup_list_iff l).mpr (fun x hx => (hl x hx).2)⟩
        by_cases hst : stopped = some ')'
        · rw [if_pos hst] at h
          injection h with hp
          cases hp
          constructor
          · exact (no_placeholders_list_iff _).mpr (fun x hx => by
              rcases List.mem_append.mp hx with hx | hx
              · exact (halts x hx).1
              · simp at hx
                subst hx
                exact hseqok.1)
          · exact (groups_dedup_list_iff _).mpr (fun x hx => by
              rcases List.mem_append.mp hx with hx | hx
              · exact (halts x hx).2
              · simp at hx
                subst hx
                exact hseqok.2)
        · rw [if_neg hst] at h
          refine iha _ _ _ _ h (fun a ha => ?_)
          rcases List.mem_append.mp ha with ha | ha
          · exact halts a ha
          · simp at ha
            subst ha
            exact hseqok
    · intro s stop acc t st rest h hacc
      rw [parse_sequence_eq] at h
      cases hpf : parse_fragment f s with
      | error e => rw [hpf] at h; exact absurd h (by simp)
      | ok v =>
        rw [hpf] at h
        obtain ⟨next, rest2⟩ := v
        have hfrag := ihf _ _ _ hpf
        cases next with
        | empty =>
          replace h : (if stop.length = 0 then Except.ok (RegexClass.sequence acc, none, rest2)
              else Except.error "unexpected end of stream") = Except.ok (t, st, rest) := h
          by_cases hsl : stop.length = 0
          · rw [if_pos hsl] at h
            injection h with hp
            cases hp
            exact ⟨acc, rfl, hacc⟩
          · rw [if_neg hsl] at h
            exact absurd h (by simp)
        | char chr =>
          replace h : (if stop.contains chr then Except.ok (RegexClass.sequence acc, some chr, rest2)
              else parse_sequence f rest2 stop (acc ++ [RegexClass.char chr])) =
              Except.ok (t, st, rest) := h
          by_cases hsc : stop.contains chr
          · rw [if_pos hsc] at h
            injection h with hp
            cases hp
            exact ⟨acc, rfl, hacc⟩
          · rw [if_neg hsc] at h
            refine ihs _ _ _ _ _ _ h (fun x hx => ?_)
            rcases List.mem_append.mp hx with hx | hx
            · exact hacc x hx
            · simp at hx
              subst hx
              exact ⟨trivial, trivial⟩
        | optionalPlaceholder =>
          replace h : (match acc.getLast? with
              | none => Except.error "repetition-operator operand invalid"
              | some pat =>
                parse_sequence f rest2 stop (acc.dropLast ++ [RegexClass.optional pat])) =
              Except.ok (t, st, rest) := h
          cases hgl : acc.getLast? with
          | none => rw [hgl] at h; exact absurd h (by simp)
          | some pat =>
            rw [hgl] at h
            have hpat := hacc pat (List.mem_of_mem_getLast? hgl)
            refine ihs _ _ _ _ _ _ h (fun x hx => ?_)
            rcases List.mem_append.mp hx with hx | hx
            · exact hacc x (List.mem_of_mem_dropLast hx)
            · simp at hx
              subst hx
              exact ⟨hpat.1, hpat.2⟩
        | oneOrMorePlaceholder =>
          replace h : (match acc.getLast? with
              | none => Except.error "repetition-operator operand invalid"
              | some pat =>
                parse_sequence f rest2 stop (acc.dropLast ++ [RegexClass.oneOrMore pat])) =
              Except.ok (t, st, rest) := h
          cases hgl : acc.getLast? with
          | none => rw [hgl] at h; exact absurd h (by simp)
          | some pat =>
            rw [hgl] at h
            have hpat := hacc pat (List.mem_of_mem_getLast? hgl)
            refine ihs _ _ _ _ _ _ h (fun x hx => ?_)
            rcases List.mem_append.mp hx with hx | hx
            · exact hacc x (List.mem_of_mem_dropLast hx)
            · simp at hx
              subst hx
              exact ⟨hpat.1, hpat.2⟩
        | digit =>
          refine ihs _ _ _ _ _ _ h (fun x hx => ?_)
          rcases List.mem_append.mp hx with hx | hx
          · exact hacc x hx
          · simp at hx
            subst hx
            rcases hfrag with hok | he | ho | hop
            · exact hok
            · exact absurd he (by simp)
            · exact absurd ho (by simp)
            · exact absurd hop (by simp)
        | alphaNum =>
          refine ihs _ _ _ _ _ _ h (fun x hx => ?_)
          rcases List.mem_append.mp hx with hx | hx
          · exact hacc x hx
          · simp at hx
            subst hx
            rcases hfrag with hok | he | ho | hop
            · exact hok
            · exact absurd he (by simp)
            · exact absurd ho (by simp)
            · exact absurd hop (by simp)
        | wildcard =>
          refine ihs _ _ _ _ _ _ h (fun x hx => ?_)
          rcases List.mem_append.mp hx with hx | hx
          · exact hacc x hx
          · simp at hx
            subst hx
            rcases hfrag with hok | he | ho | hop
            · exact hok
            · exact absurd he (by simp)
            · exact absurd ho (by simp)
            · exact absurd hop (by simp)
        | charGroup set polarity =>
          refine ihs _ _ _ _ _ _ h (fun x hx => ?_)
          rcases List.mem_append.mp hx with hx | hx
          · exact hacc x hx
          · simp at hx
            subst hx
            rcases hfrag with hok | he | ho | hop
            · exact hok
            · exact absurd he (by simp)
            · exact absurd ho (by simp)
            · exact absurd hop (by simp)
        | oneOrMore inner =>
          refine ihs _ _ _ _ _ _ h (fun x hx => ?_)
          rcases List.mem_append.mp hx with hx | hx
          · exact hacc x hx
          · simp at hx
            subst hx
            rcases hfrag with hok | he | ho | hop
            · exact hok
            · exact absurd he (by simp)
            · exact absurd ho (by simp)
            · exact absurd hop (by simp)
        | optional inner =>
          refine ihs _ _ _ _ _ _ h (fun x hx => ?_)
          rcases List.mem_append.mp hx with hx | hx
          · exact hacc x hx
          · simp at hx
            subst hx
            rcases hfrag with hok | he | ho | hop
            · exact hok
            · exact absurd he (by simp)
            · exact absurd ho (by simp)
            · exact absurd hop (by simp)
        | sequence children =>
          refine ihs _ _ _ _ _ _ h (fun x hx => ?_)
          rcases List.mem_append.mp hx with hx | hx
          · exact hacc x hx
          · simp at hx
            subst hx
            rcases hfrag with hok | he | ho | hop
            · exact hok
            · exact absurd he (by simp)
            · exact absurd ho (by simp)
            · exact absurd hop (by simp)
        | alternation branches =>
          refine ihs _ _ _ _ _ _ h (fun x hx => ?_)
          rcases List.mem_append.mp hx with hx | hx
          · exact hacc x hx
          · simp at hx
            subst hx
            rcases hfrag with hok | he | ho | hop
            · exact hok
            · exact absurd he (by simp)
            · exact absurd ho (by simp)
            · exact absurd hop (by simp)

/-- Unfolding equation for the matcher on Char nodes. -/
theorem matchesM_char_eq (fuel : Nat) (c : Char) (h : List Char) :
    matchesM (fuel + 1) (.char c) h =
      some (.ok (simple_match (headIs h (fun x => x == c)))) := rfl

/-- Unfolding equation for the matcher on Digit nodes. -/
theorem matchesM_digit_eq (fuel : Nat) (h : List Char) :
    matchesM (fuel + 1) .digit h = some (.ok (simple_match (headIs h isDigitChar))) := rfl

/-- Unfolding equation for the matcher on AlphaNum nodes. -/
theorem matchesM_alphaNum_eq (fuel : Nat) (h : List Char) :
    matchesM (fuel + 1) .alphaNum h = some (.ok (simple_match (headIs h isAlphaNumChar))) := rfl

/-- Unfolding equation for the matcher on Wildcard nodes. -/
theorem matchesM_wildcard_eq (fuel : Nat) (h : List Char) :
    matchesM (fuel + 1) .wildcard h =
      some (.ok (simple_match (headIs h (fun c => c != '\n')))) := rfl

/-- Unfolding equation for the matcher on CharGroup nodes. -/
theorem matchesM_charGroup_eq (fuel : Nat) (set : List Char) (polarity : Bool) (h : List Char) :
    matchesM (fuel + 1) (.charGroup set polarity) h =
      some (.ok (simple_match (headIs h
        (fun c => if set.contains c then polarity else !polarity)))) := rfl

/-- Unfolding equation for the Sequence loop on the empty child list. -/
theorem sequence_loop_nil_eq (fuel : Nat) (h : List Char) (c : Nat) :
    sequence_loop (fuel + 1) [] h c = some (.ok (true, c)) := rfl

/-- Unfolding equation for the Alternation loop on the empty branch list. -/
theorem alternation_loop_nil_eq (fuel : Nat) (h : List Char) :
    alternation_loop (fuel + 1) [] h = some (.ok (false, 0)) := rfl

/-- The Sequence fold of min_size succeeds when every child has a size. -/
theorem min_size_sum_ok (l : List RegexClass) (hall : ∀ x ∈ l, ∃ n, min_size x = .ok n) :
    ∀ acc, ∃ n, min_size_sum l acc = .ok n := by
  induction l with
  | nil => exact fun acc => ⟨acc, rfl⟩
  | cons p rest ih =>
    intro acc
    obtain ⟨n, hn⟩ := hall p (by simp)
    rw [show min_size_sum (p :: rest) acc =
      (match min_size p with
       | .error e => .error e
       | .ok n => min_size_sum rest (acc + n)) from rfl, hn]
    exact ih (fun x hx => hall x (by simp [hx])) (acc + n)

/-- The Alternation fold of min_size succeeds when every branch has a size. -/
theorem min_size_min_ok (l : List RegexClass) (hall : ∀ x ∈ l, ∃ n, min_size x = .ok n) :
    ∀ acc, ∃ n, min_size_min l acc = .ok n := by
  induction l with
  | nil => exact fun acc => ⟨acc, rfl⟩
  | cons p rest ih =>
    intro acc
    obtain ⟨n, hn⟩ := hall p (by simp)
    rw [show min_size_min (p :: rest) acc =
      (match min_size p with
       | .error e => .error e
       | .ok n => min_size_min rest (min acc n)) from rfl, hn]
    exact ih (fun x hx => hall x (by simp [hx])) (min acc n)

/-- On a placeholder-free tree min_size never reaches its error branch. -/
theorem min_size_ok_aux : ∀ k t, sizeOf t ≤ k → no_placeholders t → ∃ n, min_size t = .ok n := by
  intro k
  induction k with
  | zero =>
    intro t ht
    cases t <;> simp at ht
  | succ k ih =>
    intro t ht hnp
    cases t with
    | char c => exact ⟨1, rfl⟩
    | alphaNum => exact ⟨1, rfl⟩
    | digit => exact ⟨1, rfl⟩
    | wildcard => exact ⟨1, rfl⟩
    | charGroup set polarity => exact ⟨1, rfl⟩
    | optional p => exact ⟨0, rfl⟩
    | oneOrMore p =>
      have hs : sizeOf p ≤ k := by simp at ht; omega
      exact ih p hs hnp
    | sequence l =>
      have hall : ∀ x ∈ l, ∃ n, min_size x = .ok n := fun x hx => by
        have hsx := List.sizeOf_lt_of_mem hx
        refine ih x (by simp at ht; omega) ?_
        exact (no_placeholders_list_iff l).mp hnp x hx
      exact min_size_sum_ok l hall 0
    | alternation l =>
      have hall : ∀ x ∈ l, ∃ n, min_size x = .ok n := fun x hx => by
        have hsx := List.sizeOf_lt_of_mem hx
        refine ih x (by simp at ht; omega) ?_
        exact (no_placeholders_list_iff l).mp hnp x hx
      exact min_size_min_ok l hall USIZE_MAX
    | empty => exact hnp.elim
    | oneOrMorePlaceholder => exact hnp.elim
    | optionalPlaceholder => exact hnp.elim

/-- On a placeholder-free tree min_size succeeds. -/
theorem min_size_ok (t : RegexClass) (hnp : no_placeholders t) : ∃ n, min_size t = .ok n :=
  min_size_ok_aux (sizeOf t) t le_rfl hnp

/-- On placeholder-free trees the matcher never reaches its error branch,
whatever the fuel: it either is still running (none) or reports a match
outcome. -/
theorem matches_no_error (fuel : Nat) :
    (∀ node h, no_placeholders node → ∀ e, matchesM fuel node h ≠ some (.error e)) ∧
    (∀ pat h c, no_placeholders pat → ∀ e, one_or_more_loop fuel pat h c ≠ some (.error e)) ∧
    (∀ seq h c, no_placeholders_list seq → ∀ e, sequence_loop fuel seq h c ≠ some (.error e)) ∧
    (∀ seq h, no_placeholders_list seq → ∀ e, alternation_loop fuel seq h ≠ some (.error e)) := by
  induction fuel with
  | zero =>
    refine ⟨?_, ?_, ?_, ?_⟩ <;> intros <;>
      simp [show ∀ node h, matchesM 0 node h = none from fun _ _ => rfl,
        show ∀ p h c, one_or_more_loop 0 p h c = none from fun _ _ _ => rfl,
        show ∀ s h c, sequence_loop 0 s h c = none from fun _ _ _ => rfl,
        show ∀ s h, alternation_loop 0 s h = none from fun _ _ => rfl]
  | succ f ih =>
    obtain ⟨ihm, iho, ihs2, iha2⟩ := ih
    refine ⟨?_, ?_, ?_, ?_⟩
    · intro node h hnp e
      cases node with
      | char c => simp [matchesM_char_eq]
      | digit => simp [matchesM_digit_eq]
      | alphaNum => simp [matchesM_alphaNum_eq]
      | wildcard => simp [matchesM_wildcard_eq]
      | charGroup set polarity => simp [matchesM_charGroup_eq]
      | oneOrMore p =>
        rw [matchesM_oneOrMore_eq]
        cases ho : one_or_more_loop f p h 0 with
        | none => simp
        | some v =>
          cases v with
          | error e2 => exact absurd ho (iho p h 0 hnp e2)
          | ok c => simp
      | optional p =>
        rw [matchesM_optional_eq]
        cases hm : matchesM f p h with
        | none => simp
        | some v =>
          cases v with
          | error e2 => exact absurd hm (ihm p h hnp e2)
          | ok c => simp
      | sequence seq =>
        rw [matchesM_sequence_eq]
        exact ihs2 seq h 0 hnp e
      | alternation seq =>
        rw [matchesM_alternation_eq]
        exact iha2 seq h hnp e
      | empty => exact hnp.elim
      | oneOrMorePlaceholder => exact hnp.elim
      | optionalPlaceholder => exact hnp.elim
    · intro pat h c hnp e
      rw [one_or_more_loop_eq]
      cases hm : matchesM f pat (h.drop c) with
      | none => simp
      | some v =>
        cases v with
        | error e2 => exact absurd hm (ihm pat (h.drop c) hnp e2)
        | ok p =>
          obtain ⟨m, length⟩ := p
          cases m with
          | false => simp
          | true => exact iho pat h (c + length) hnp e
    · intro seq h c hnp e
      cases seq with
      | nil => simp [sequence_loop_nil_eq]
      | cons p rest =>
        obtain ⟨hp1, hp2⟩ : no_placeholders p ∧ no_placeholders_list rest := hnp
        rw [sequence_loop_cons_eq]
        cases hm : matchesM f p (h.drop c) with
        | none => simp
        | some v =>
          cases v with
          | error e2 => exact absurd hm (ihm p (h.drop c) hp1 e2)
          | ok q =>
            obtain ⟨m, length⟩ := q
            cases m with
            | false => simp
            | true => exact ihs2 rest h (c + length) hp2 e
    · intro seq h hnp e
      cases seq with
      | nil => simp [alternation_loop_nil_eq]
      | cons p rest =>
        obtain ⟨hp1, hp2⟩ : no_placeholders p ∧ no_placeholders_list rest := hnp
        rw [alternation_loop_cons_eq]
        cases hm : matchesM f p h with
        | none => simp
        | some v =>
          cases v with
          | error e2 => exact absurd hm (ihm p h hp1 e2)
          | ok q =>
            obtain ⟨m, length⟩ := q
            cases m with
            | false => exact iha2 rest h hp2 e
            | true => simp

/-- Unfolding equation of RegexPattern.parse. -/
theorem parse_eq (pattern : List Char) :
    RegexPattern.parse pattern =
      match parse_sequence (parse_fuel (strip_end (strip_start pattern).2).2)
          (strip_end (strip_start pattern).2).2 [] [] with
      | .error e => .error e
      | .ok (sequence, _, _) =>
        .ok ⟨(strip_start pattern).1, (strip_end (strip_start pattern).2).1, sequence⟩ := rfl

/-- C6: a successfully parsed pattern has a Sequence at the root, its tree is
free of Empty and placeholder variants, and consequently the error branches of
min_size and of the matcher are unreachable on it. -/
theorem C6_parser_output_well_formed (s : List Char) (pat : RegexPattern)
    (hp : RegexPattern.parse s = .ok pat) :
    (∃ l, pat.sequence = .sequence l) ∧ no_placeholders pat.sequence ∧
    (∃ n, min_size pat.sequence = .ok n) ∧
    (∀ fuel h e, matchesM fuel pat.sequence h ≠ some (.error e)) := by
  rw [parse_eq] at hp
  cases hps : parse_sequence (parse_fuel (strip_end (strip_start s).2).2)
      (strip_end (strip_start s).2).2 [] [] with
  | error e => rw [hps] at hp; exact absurd hp (by simp)
  | ok v =>
    rw [hps] at hp
    obtain ⟨sq, st, rest⟩ := v
    obtain ⟨l, hseq, hl⟩ := (parser_inv _).2.2 _ _ _ _ _ _ hps (by simp)
    injection hp with hp2
    cases hp2
    have hnp : no_placeholders sq := by
      subst hseq
      exact (no_placeholders_list_iff l).mpr (fun x hx => (hl x hx).1)
    exact ⟨⟨l, hseq⟩, hnp, min_size_ok _ hnp,
      fun fuel h e => (matches_no_error fuel).1 _ _ hnp e⟩

/-- Witness for C6 at the one-character pattern "a". -/
theorem C6_witness :
    RegexPattern.parse ['a'] = .ok ⟨false, false, .sequence [.char 'a']⟩ ∧
    ((∃ l, RegexClass.sequence [.char 'a'] = .sequence l) ∧
      no_placeholders (.sequence [.char 'a']) ∧
      (∃ n, min_size (.sequence [.char 'a']) = .ok n) ∧
      (∀ fuel h e, matchesM fuel (.sequence [.char 'a']) h ≠ some (.error e))) :=
  ⟨rfl, C6_parser_output_well_formed ['a'] ⟨false, false, .sequence [.char 'a']⟩ rfl⟩

/-- C9 amended: in every successfully parsed pattern, each CharGroup owns a
set whose non-caret members are pairwise distinct; the caret itself can occur
several times (see the C9 counterexample), because its push skips the
membership check. -/
theorem C9_dedup_amended (s : List Char) (pat : RegexPattern)
    (hp : RegexPattern.parse s = .ok pat) :
    groups_dedup pat.sequence := by
  rw [parse_eq] at hp
  cases hps : parse_sequence (parse_fuel (strip_end (strip_start s).2).2)
      (strip_end (strip_start s).2).2 [] [] with
  | error e => rw [hps] at hp; exact absurd hp (by simp)
  | ok v =>
    rw [hps] at hp
    obtain ⟨sq, st, rest⟩ := v
    obtain ⟨l, hseq, hl⟩ := (parser_inv _).2.2 _ _ _ _ _ _ hps (by simp)
    injection hp with hp2
    cases hp2
    subst hseq
    exact (groups_dedup_list_iff l).mpr (fun x hx => (hl x hx).2)

/-- Witness for the amended C9 statement at the pattern "[a^^]": the group
has a duplicated caret but its non-caret members are distinct. -/
theorem C9_dedup_amended_witness :
    RegexPattern.parse ['[', 'a', '^', '^', ']'] =
      .ok ⟨false, false, .sequence [.charGroup ['a', '^', '^'] true]⟩ ∧
    groups_dedup (RegexPattern.mk false false
      (.sequence [.charGroup ['a', '^', '^'] true])).sequence :=
  ⟨rfl, C9_dedup_amended ['[', 'a', '^', '^', ']'] _ rfl⟩

/-- Offset k is accepted by the scan: the matcher reports a match there whose
consumed length satisfies the end-anchor rule when the pattern has one. -/
def AcceptedAt (fuel : Nat) (root : RegexClass) (ue : Bool) (h : List Char)
    (hlen k : Nat) : Prop :=
  ∃ n, matchesM fuel root (h.drop k) = some (.ok (true, n)) ∧ (ue = true → n = hlen - k)

/-- Offset k is attempted and rejected by the scan: the matcher finishes there
with either a non-match or, for an end-anchored pattern, a match of the wrong
consumed length. -/
def RejectedAt (fuel : Nat) (root : RegexClass) (ue : Bool) (h : List Char)
    (hlen k : Nat) : Prop :=
  ∃ m n, matchesM fuel root (h.drop k) = some (.ok (m, n)) ∧
    (m = false ∨ (ue = true ∧ n ≠ hlen - k))

/-- Unpacking of a true scan acceptance condition. -/
theorem accept_cond_true {m ue : Bool} {n a : Nat}
    (hcond : (m && (!ue || n == a)) = true) : m = true ∧ (ue = true → n = a) := by
  cases m with
  | false => simp at hcond
  | true =>
    refine ⟨rfl, fun hue => ?_⟩
    subst hue
    simpa using hcond

/-- Unpacking of a false scan acceptance condition. -/
theorem accept_cond_false {m ue : Bool} {n a : Nat}
    (hcond : (m && (!ue || n == a)) = false) : m = false ∨ (ue = true ∧ n ≠ a) := by
  cases m with
  | false => exact Or.inl rfl
  | true =>
    cases ue with
    | false => simp at hcond
    | true =>
      right
      refine ⟨rfl, ?_⟩
      simpa using hcond

/-- Characterization of the offset scan: it yields true exactly when some
offset within the remaining range is accepted and every earlier offset was
attempted and rejected (the increasing order and short-circuit of the Rust
for loop). -/
theorem scan_loop_true_iff (fuel : Nat) (root : RegexClass) (ue : Bool) (h : List Char)
    (hlen : Nat) :
    ∀ remaining offset,
      scan_loop fuel root ue h hlen offset remaining = some (.ok true) ↔
      ∃ i, i ≤ remaining ∧ AcceptedAt fuel root ue h hlen (offset + i) ∧
        ∀ j < i, RejectedAt fuel root ue h hlen (offset + j) := by
  intro remaining
  induction remaining with
  | zero =>
    intro offset
    rw [scan_loop_eq]
    cases hm : matchesM fuel root (h.drop offset) with
    | none =>
      constructor
      · intro hc
        exact absurd hc (by simp)
      · rintro ⟨i, hi, ⟨n, hmn, _⟩, _⟩
        obtain rfl := Nat.le_zero.mp hi
        rw [Nat.add_zero, hm] at hmn
        exact absurd hmn (by simp)
    | some v =>
      cases v with
      | error e =>
        constructor
        · intro hc
          exact absurd hc (by simp)
        · rintro ⟨i, hi, ⟨n, hmn, _⟩, _⟩
          obtain rfl := Nat.le_zero.mp hi
          rw [Nat.add_zero, hm] at hmn
          exact absurd hmn (by simp)
      | ok p =>
        obtain ⟨m, n⟩ := p
        show (if (m && (!ue || n == hlen - offset)) = true then some (Except.ok true)
          else some (Except.ok false)) = some (Except.ok true) ↔ _
        cases hcond : (m && (!ue || n == hlen - offset)) with
        | true =>
          obtain ⟨hm1, hm2⟩ := accept_cond_true hcond
          subst hm1
          constructor
          · intro _
            refine ⟨0, le_rfl, ⟨n, ?_, ?_⟩, fun j hj => absurd hj (Nat.not_lt_zero j)⟩
            · rw [Nat.add_zero]
              exact hm
            · rw [Nat.add_zero]
              exact hm2
          · intro _
            simp
        | false =>
          rw [if_neg (by simp)]
          constructor
          · intro hc
            exact absurd hc (by simp)
          · rintro ⟨i, hi, hacc, _⟩
            obtain rfl := Nat.le_zero.mp hi
            obtain ⟨n2, hmn, himp⟩ := hacc
            rw [Nat.add_zero, hm] at hmn
            obtain ⟨hm1, hn1⟩ : m = true ∧ n = n2 := by simpa using hmn
            subst hm1
            subst hn1
            rcases accept_cond_false hcond with h1 | ⟨hue, hne⟩
            · exact absurd h1 (by simp)
            · have hv := himp hue
              rw [Nat.add_zero] at hv
              exact absurd hv hne
  | succ rem ih =>
    intro offset
    rw [scan_loop_eq]
    cases hm : matchesM fuel root (h.drop offset) with
    | none =>
      constructor
      · intro hc
        exact absurd hc (by simp)
      · rintro ⟨i, hi, hacc, hrej⟩
        cases i with
        | zero =>
          obtain ⟨n, hmn, _⟩ := hacc
          rw [Nat.add_zero, hm] at hmn
          exact absurd hmn (by simp)
        | succ k =>
          obtain ⟨m2, n2, hmn, _⟩ := hrej 0 (Nat.succ_pos k)
          rw [Nat.add_zero, hm] at hmn
          exact absurd hmn (by simp)
    | some v =>
      cases v with
      | error e =>
        constructor
        · intro hc
          exact absurd hc (by simp)
        · rintro ⟨i, hi, hacc, hrej⟩
          cases i with
          | zero =>
            obtain ⟨n, hmn, _⟩ := hacc
            rw [Nat.add_zero, hm] at hmn
            exact absurd hmn (by simp)
          | succ k =>
            obtain ⟨m2, n2, hmn, _⟩ := hrej 0 (Nat.succ_pos k)
            rw [Nat.add_zero, hm] at hmn
            exact absurd hmn (by simp)
      | ok p =>
        obtain ⟨m, n⟩ := p
        show (if (m && (!ue || n == hlen - offset)) = true then some (Except.ok true)
          else scan_loop fuel root ue h hlen (offset + 1) rem) = some (Except.ok true) ↔ _
        cases hcond : (m && (!ue || n == hlen - offset)) with
        | true =>
          obtain ⟨hm1, hm2⟩ := accept_cond_true hcond
          subst hm1
          constructor
          · intro _
            refine ⟨0, Nat.zero_le _, ⟨n, ?_, ?_⟩,
              fun j hj => absurd hj (Nat.not_lt_zero j)⟩
            · rw [Nat.add_zero]
              exact hm
            · rw [Nat.add_zero]
              exact hm2
          · intro _
            simp
        | false =>
          rw [if_neg (by simp)]
          have hrej0 : RejectedAt fuel root ue h hlen offset :=
            ⟨m, n, hm, accept_cond_false hcond⟩
          rw [ih (offset + 1)]
          constructor
          · rintro ⟨i, hi, hacc, hrej⟩
            refine ⟨i + 1, Nat.succ_le_succ hi, ?_, ?_⟩
            · have harith : offset + 1 + i = offset + (i + 1) := by omega
              rw [harith] at hacc
              exact hacc
            · intro j hj
              cases j with
              | zero =>
                rw [Nat.add_zero]
                exact hrej0
              | succ k =>
                have hk : k < i := Nat.lt_of_succ_lt_succ hj
                have hr := hrej k hk
                have harith : offset + 1 + k = offset + (k + 1) := by omega
                rw [harith] at hr
                exact hr
          · rintro ⟨i, hi, hacc, hrej⟩
            cases i with
            | zero =>
              obtain ⟨n2, hmn, himp⟩ := hacc
              rw [Nat.add_zero, hm] at hmn
              obtain ⟨hm1, hn1⟩ : m = true ∧ n = n2 := by simpa using hmn
              subst hm1
              subst hn1
              rcases accept_cond_false hcond with h1 | ⟨hue, hne⟩
              · exact absurd h1 (by simp)
              · have hv := himp hue
                rw [Nat.add_zero] at hv
                exact absurd hv hne
            | succ k =>
              refine ⟨k, Nat.le_of_succ_le_succ hi, ?_, ?_⟩
              · have harith : offset + (k + 1) = offset + 1 + k := by omega
                rw [harith] at hacc
                exact hacc
              · intro j hj
                have hr := hrej (j + 1) (Nat.succ_lt_succ hj)
                have harith : offset + (j + 1) = offset + 1 + j := by omega
                rw [harith] at hr
                exact hr

/-- When the root minimum exceeds the trimmed length the containment check
prunes immediately. -/
theorem is_contained_in_prune (fuel : Nat) (pat : RegexPattern) (h : List Char) (ms : Nat)
    (hms : min_size pat.sequence = .ok ms) (hgt : ms > len_no_newline h) :
    RegexPattern.is_contained_in fuel pat h = some (.ok false) := by
  rw [is_contained_in_eq, hms]
  show (if ms > len_no_newline h then some (Except.ok false)
    else if pat.at_start = true then
      (match matchesM fuel pat.sequence h with
       | none => none
       | some (Except.error e) => some (Except.error e)
       | some (Except.ok (m, length)) =>
         if pat.until_end = true then some (Except.ok (m && length == len_no_newline h))
         else some (Except.ok m))
    else scan_loop fuel pat.sequence pat.until_end h (len_no_newline h) 0
      (len_no_newline h - ms)) = some (Except.ok false)
  rw [if_pos hgt]

/-- For an unanchored start within range the containment check is the offset
scan. -/
theorem is_contained_in_scan (fuel : Nat) (pat : RegexPattern) (h : List Char) (ms : Nat)
    (hms : min_size pat.sequence = .ok ms) (hgt : ¬ ms > len_no_newline h)
    (hat : pat.at_start = false) :
    RegexPattern.is_contained_in fuel pat h =
      scan_loop fuel pat.sequence pat.until_end h (len_no_newline h) 0
        (len_no_newline h - ms) := by
  rw [is_contained_in_eq, hms]
  show (if ms > len_no_newline h then some (Except.ok false)
    else if pat.at_start = true then
      (match matchesM fuel pat.sequence h with
       | none => none
       | some (Except.error e) => some (Except.error e)
       | some (Except.ok (m, length)) =>
         if pat.until_end = true then some (Except.ok (m && length == len_no_newline h))
         else some (Except.ok m))
    else scan_loop fuel pat.sequence pat.until_end h (len_no_newline h) 0
      (len_no_newline h - ms)) = _
  rw [if_neg hgt, hat]
  simp

/-- For an anchored start within range the containment check is one match at
offset 0 with the end-anchor length comparison. -/
theorem is_contained_in_at_start (fuel : Nat) (pat : RegexPattern) (h : List Char) (ms : Nat)
    (hms : min_size pat.sequence = .ok ms) (hgt : ¬ ms > len_no_newline h)
    (hat : pat.at_start = true) :
    RegexPattern.is_contained_in fuel pat h =
      match matchesM fuel pat.sequence h with
      | none => none
      | some (.error e) => some (.error e)
      | some (.ok (m, length)) =>
        if pat.until_end = true then some (.ok (m && length == len_no_newline h))
        else some (.ok m) := by
  rw [is_contained_in_eq, hms]
  show (if ms > len_no_newline h then some (Except.ok false)
    else if pat.at_start = true then
      (match matchesM fuel pat.sequence h with
       | none => none
       | some (Except.error e) => some (Except.error e)
       | some (Except.ok (m, length)) =>
         if pat.until_end = true then some (Except.ok (m && length == len_no_newline h))
         else some (Except.ok m))
    else scan_loop fuel pat.sequence pat.until_end h (len_no_newline h) 0
      (len_no_newline h - ms)) = _
  rw [if_neg hgt, hat]
  simp

/-- Scan pruning and offset range in the character-level model: a root
minimum above the trimmed length gives Ok(false) at once (for every fuel,
even 0); otherwise, for an unanchored start, Ok(true) exactly when some
offset k between 0 and trimmed length minus the minimum is accepted while
every smaller offset was attempted and rejected. -/
theorem scan_pruning_model (pat : RegexPattern) (h : List Char) (fuel ms : Nat)
    (hms : min_size pat.sequence = .ok ms) :
    (ms > len_no_newline h → RegexPattern.is_contained_in fuel pat h = some (.ok false)) ∧
    (pat.at_start = false → ms ≤ len_no_newline h →
      (RegexPattern.is_contained_in fuel pat h = some (.ok true) ↔
        ∃ k, k ≤ len_no_newline h - ms ∧
          AcceptedAt fuel pat.sequence pat.until_end h (len_no_newline h) k ∧
          ∀ j < k, RejectedAt fuel pat.sequence pat.until_end h (len_no_newline h) j)) := by
  constructor
  · intro hgt
    exact is_contained_in_prune fuel pat h ms hms hgt
  · intro hat hle
    rw [is_contained_in_scan fuel pat h ms hms (by omega) hat]
    have hiff := scan_loop_true_iff fuel pat.sequence pat.until_end h (len_no_newline h)
      (len_no_newline h - ms) 0
    simpa using hiff

/-- C4: the end-anchor acceptance rule.  For an end-anchored pattern with an
unanchored start in range, the check returns Ok(true) exactly when some offset
k in the scan range has a match whose consumed length equals the trimmed
length minus k, all earlier offsets being attempted and rejected; a rejected
offset therefore just moves the scan one offset further.  For an anchored
start in range, the single match at offset 0 decides the call: the result is
Ok(matched AND consumed length equals the trimmed length), so a rejected match
at offset 0 makes the whole call return Ok(false). -/
theorem C4_end_anchor (pat : RegexPattern) (h : List Char) (fuel ms : Nat)
    (hms : min_size pat.sequence = .ok ms) (hue : pat.until_end = true) :
    (pat.at_start = false → ms ≤ len_no_newline h →
      (RegexPattern.is_contained_in fuel pat h = some (.ok true) ↔
        ∃ k, k ≤ len_no_newline h - ms ∧
          matchesM fuel pat.sequence (h.drop k) =
            some (.ok (true, len_no_newline h - k)) ∧
          ∀ j < k, RejectedAt fuel pat.sequence pat.until_end h (len_no_newline h) j)) ∧
    (pat.at_start = true → ms ≤ len_no_newline h →
      ∀ m n, matchesM fuel pat.sequence h = some (.ok (m, n)) →
        RegexPattern.is_contained_in fuel pat h =
          some (.ok (m && n == len_no_newline h))) := by
  constructor
  · intro hat hle
    rw [is_contained_in_scan fuel pat h ms hms (by omega) hat]
    rw [scan_loop_true_iff fuel pat.sequence pat.until_end h (len_no_newline h)
      (len_no_newline h - ms) 0]
    constructor
    · rintro ⟨i, hi, ⟨n, hmn, himp⟩, hrej⟩
      rw [Nat.zero_add] at hmn
      rw [himp hue] at hmn
      rw [Nat.zero_add] at hmn
      refine ⟨i, hi, hmn, ?_⟩
      intro j hj
      have hr := hrej j hj
      rw [Nat.zero_add] at hr
      exact hr
    · rintro ⟨k, hk, hmk, hrej⟩
      refine ⟨k, hk, ⟨len_no_newline h - k, ?_, fun _ => ?_⟩, ?_⟩
      · rw [Nat.zero_add]
        exact hmk
      · rw [Nat.zero_add]
      · intro j hj
        have hr := hrej j hj
        rw [Nat.zero_add]
        exact hr
  · intro hat hle m n hm
    rw [is_contained_in_at_start fuel pat h ms hms (by omega) hat]
    rw [hm, hue]
    simp

/-- Witness for C4 at the pattern "cat$" and haystack "cats" (an end-anchored
pattern whose match at each offset has the wrong length). -/
theorem C4_end_anchor_witness :
    (min_size (RegexPattern.mk false true
        (.sequence [.char 'c', .char 'a', .char 't'])).sequence = .ok 3 ∧
      (RegexPattern.mk false true
        (.sequence [.char 'c', .char 'a', .char 't'])).until_end = true) ∧
    (((RegexPattern.mk false true
        (.sequence [.char 'c', .char 'a', .char 't'])).at_start = false →
      3 ≤ len_no_newline ['c', 'a', 't', 's'] →
      (RegexPattern.is_contained_in 10 (RegexPattern.mk false true
          (.sequence [.char 'c', .char 'a', .char 't'])) ['c', 'a', 't', 's'] =
          some (.ok true) ↔
        ∃ k, k ≤ len_no_newline ['c', 'a', 't', 's'] - 3 ∧
          matchesM 10 (RegexPattern.mk false true
            (.sequence [.char 'c', .char 'a', .char 't'])).sequence
            (['c', 'a', 't', 's'].drop k) =
            some (.ok (true, len_no_newline ['c', 'a', 't', 's'] - k)) ∧
          ∀ j < k, RejectedAt 10 (RegexPattern.mk false true
            (.sequence [.char 'c', .char 'a', .char 't'])).sequence
            (RegexPattern.mk false true
              (.sequence [.char 'c', .char 'a', .char 't'])).until_end
            ['c', 'a', 't', 's'] (len_no_newline ['c', 'a', 't', 's']) j)) ∧
    ((RegexPattern.mk false true
        (.sequence [.char 'c', .char 'a', .char 't'])).at_start = true →
      3 ≤ len_no_newline ['c', 'a', 't', 's'] →
      ∀ m n, matchesM 10 (RegexPattern.mk false true
          (.sequence [.char 'c', .char 'a', .char 't'])).sequence ['c', 'a', 't', 's'] =
          some (.ok (m, n)) →
        RegexPattern.is_contained_in 10 (RegexPattern.mk false true
          (.sequence [.char 'c', .char 'a', .char 't'])) ['c', 'a', 't', 's'] =
          some (.ok (m && n == len_no_newline ['c', 'a', 't', 's'])))) :=
  ⟨⟨rfl, rfl⟩, C4_end_anchor (RegexPattern.mk false true
    (.sequence [.char 'c', .char 'a', .char 't'])) ['c', 'a', 't', 's'] 10 3 rfl rfl⟩

/-- The characters that are special to the parser or anchor stripping; a
"literal pattern" in the sense of C8 avoids all of them. -/
def specials : List Char := ['^', '$', '\\', '[', '(', '+', '?', '.']

/-- Folding a run of literal characters: every fragment is a Char atom, so the
sequence parse appends one Char node per input character. -/
theorem parse_sequence_literal : ∀ (p : List Char) (fuel : Nat) (acc : List RegexClass),
    (∀ c ∈ p, c ∉ specials) → p.length + 2 ≤ fuel →
    parse_sequence fuel p [] acc = .ok (.sequence (acc ++ p.map .char), none, []) := by
  intro p
  induction p with
  | nil =>
    intro fuel acc _ hf
    rcases fuel with _ | _ | f
    · omega
    · omega
    · rw [parse_sequence_eq]
      rw [show parse_fragment (f + 1) ([] : List Char) =
        Except.ok (RegexClass.empty, ([] : List Char)) from rfl]
      simp
  | cons c rest ih =>
    intro fuel acc hp hf
    rcases fuel with _ | f
    · omega
    · rw [parse_sequence_eq]
      have hcc := hp c (by simp)
      simp only [specials, List.mem_cons, List.not_mem_nil, or_false] at hcc
      push_neg at hcc
      obtain ⟨h1, h2, h3, h4, h5, h6, h7, h8⟩ := hcc
      rcases f with _ | f2
      · simp at hf
      · rw [parse_fragment_cons_eq]
        rw [if_neg h3, if_neg h4, if_neg h5, if_neg h6, if_neg h7, if_neg h8]
        have hrec := ih (f2 + 1) (acc ++ [RegexClass.char c])
          (fun x hx => hp x (by simp [hx])) (by simp at hf ⊢; omega)
        rw [List.append_assoc] at hrec
        exact hrec

/-- Anchor stripping leaves a stream alone when its head is not a caret. -/
theorem strip_start_of_ne (c : Char) (rest : List Char) (hc : c ≠ '^') :
    strip_start (c :: rest) = (false, c :: rest) := by
  unfold strip_start
  split
  · rename_i heq
    injection heq with hh ht
    exact absurd hh hc
  · rfl

/-- A literal pattern is unchanged by anchor stripping. -/
theorem strip_literal (p : List Char) (hp : ∀ c ∈ p, c ∉ specials) :
    strip_start p = (false, p) ∧ strip_end p = (false, p) := by
  constructor
  · cases p with
    | nil => rfl
    | cons c rest =>
      have hcc := hp c (by simp)
      simp only [specials, List.mem_cons, List.not_mem_nil, or_false] at hcc
      push_neg at hcc
      exact strip_start_of_ne c rest hcc.1
  · unfold strip_end
    rw [if_neg ?hne]
    case hne =>
      intro hgl
      have hmem : '$' ∈ p := List.mem_of_mem_getLast? hgl
      have := hp '$' hmem
      simp [specials] at this

/-- min_size of a run of Char atoms accumulates one per character. -/
theorem min_size_sum_literal : ∀ (l : List Char) (acc : Nat),
    min_size_sum (l.map .char) acc = .ok (acc + l.length) := by
  intro l
  induction l with
  | nil => intro acc; simp [min_size_sum]
  | cons c rest ih =>
    intro acc
    rw [show min_size_sum ((c :: rest).map .char) acc =
      min_size_sum (rest.map .char) (acc + 1) from rfl]
    rw [ih (acc + 1)]
    congr 1
    simp
    omega

/-- min_size of a literal Sequence is the pattern length. -/
theorem min_size_literal (l : List Char) :
    min_size (.sequence (l.map .char)) = .ok l.length := by
  rw [show min_size (.sequence (l.map .char)) = min_size_sum (l.map .char) 0 from rfl]
  rw [min_size_sum_literal]
  simp

/-- One step of the Sequence loop at a known child-match result. -/
theorem sequence_loop_cons_step (fuel : Nat) (pat : RegexClass) (rest : List RegexClass)
    (h : List Char) (c : Nat) (b : Bool) (len : Nat)
    (hm : matchesM fuel pat (h.drop c) = some (.ok (b, len))) :
    sequence_loop (fuel + 1) (pat :: rest) h c =
      if b then sequence_loop fuel rest h (c + len) else some (.ok (false, 0)) := by
  rw [sequence_loop_cons_eq, hm]

/-- The Sequence loop over a run of Char atoms is exactly a prefix test: it
matches iff the character run is a prefix of the suffix at the accumulated
position, consuming one unit per character. -/
theorem sequence_loop_literal : ∀ (l : List Char) (fuel : Nat) (h : List Char) (consumed : Nat),
    l.length + 1 ≤ fuel →
    sequence_loop fuel (l.map .char) h consumed =
      some (.ok (if l.isPrefixOf (h.drop consumed) then (true, consumed + l.length)
        else (false, 0))) := by
  intro l
  induction l with
  | nil =>
    intro fuel h consumed hf
    rcases fuel with _ | f
    · omega
    · rw [show (List.map RegexClass.char ([] : List Char)) = ([] : List RegexClass) from rfl]
      rw [sequence_loop_nil_eq]
      simp [List.isPrefixOf]
  | cons c rest ih =>
    intro fuel h consumed hf
    rcases fuel with _ | f
    · omega
    · rcases f with _ | f2
      · simp at hf
      · rw [show ((c :: rest).map RegexClass.char) =
          RegexClass.char c :: rest.map RegexClass.char from rfl]
        cases hd : h.drop consumed with
        | nil =>
          have hstep : matchesM (f2 + 1) (RegexClass.char c) (h.drop consumed) =
              some (.ok (false, 0)) := by
            rw [matchesM_char_eq, hd]
            rfl
          rw [sequence_loop_cons_step (f2 + 1) _ _ h consumed false 0 hstep]
          simp [List.isPrefixOf]
        | cons hc htail =>
          by_cases hcc : hc = c
          · subst hcc
            have hstep : matchesM (f2 + 1) (RegexClass.char hc) (h.drop consumed) =
                some (.ok (true, 1)) := by
              rw [matchesM_char_eq, hd]
              simp [headIs, simple_match]
            rw [sequence_loop_cons_step (f2 + 1) _ _ h consumed true 1 hstep]
            rw [if_pos rfl]
            rw [ih (f2 + 1) h (consumed + 1) (by simp at hf ⊢; omega)]
            have hdrop : h.drop (consumed + 1) = htail := by
              rw [← List.drop_drop, hd]
              rfl
            rw [hdrop]
            have hpre : (hc :: rest).isPrefixOf (hc :: htail) = rest.isPrefixOf htail := by
              simp [List.isPrefixOf]
            rw [hpre]
            cases hp2 : rest.isPrefixOf htail with
            | true =>
              simp only [if_pos rfl]
              have harith : consumed + 1 + rest.length = consumed + (hc :: rest).length := by
                simp
                omega
              rw [harith]
            | false => simp
          · have hstep : matchesM (f2 + 1) (RegexClass.char c) (h.drop consumed) =
                some (.ok (false, 0)) := by
              rw [matchesM_char_eq, hd]
              have hb : (hc == c) = false := by
                simpa using hcc
              simp [headIs, simple_match, hb]
            rw [sequence_loop_cons_step (f2 + 1) _ _ h consumed false 0 hstep]
            have hb2 : (c == hc) = false := by
              simpa using fun hx => hcc hx.symm
            have hpre : (c :: rest).isPrefixOf (hc :: htail) = false := by
              simp [List.isPrefixOf, hb2]
            rw [hpre]
            simp

/-- The matcher on a literal Sequence is a prefix test of the suffix. -/
theorem matchesM_literal (l : List Char) (fuel : Nat) (h : List Char)
    (hf : l.length + 2 ≤ fuel) :
    matchesM fuel (.sequence (l.map .char)) h =
      some (.ok (if l.isPrefixOf h then (true, l.length) else (false, 0))) := by
  rcases fuel with _ | f
  · omega
  · rw [matchesM_sequence_eq]
    rw [sequence_loop_literal l f h 0 (by omega)]
    simp

/-- The trimmed length never exceeds the haystack length. -/
theorem len_no_newline_le (h : List Char) : len_no_newline h ≤ h.length := Nat.sub_le _ _

/-- A prefix of bounded length is a prefix of the truncation. -/
theorem prefix_take_of_prefix {l m : List Char} (n : Nat) (h : l <+: m)
    (hn : l.length ≤ n) : l <+: m.take n := by
  rw [List.prefix_iff_eq_take.mp h]
  exact List.take_prefix_take_left m hn

/-- Bridge between the offset scan and substring containment: some in-range
offset carries the literal run as a prefix of the suffix iff the run is an
infix of the truncated haystack. -/
theorem exists_prefix_iff_substring (l h : List Char) (hlen : Nat) (hle : hlen ≤ h.length)
    (hll : l.length ≤ hlen) :
    (∃ k, k ≤ hlen - l.length ∧ l.isPrefixOf (h.drop k) = true) ↔ l <:+: h.take hlen := by
  constructor
  · rintro ⟨k, hk, hpre⟩
    have hp : l <+: h.drop k := List.isPrefixOf_iff_prefix.mp hpre
    have hp2 : l <+: (h.drop k).take (hlen - k) := prefix_take_of_prefix _ hp (by omega)
    have heq : (h.drop k).take (hlen - k) = (h.take hlen).drop k := (List.drop_take hlen k h).symm
    rw [heq] at hp2
    exact hp2.isInfix.trans (List.drop_suffix k (h.take hlen)).isInfix
  · rintro ⟨s, t, hst⟩
    have hlen2 : (h.take hlen).length = hlen := by
      rw [List.length_take]
      omega
    refine ⟨s.length, ?_, ?_⟩
    · have hc := congrArg List.length hst
      simp only [List.length_append, hlen2] at hc
      omega
    · have hdrop : (h.take hlen).drop s.length = l ++ t := by
        rw [← hst, List.append_assoc]
        exact List.drop_left s (l ++ t)
      rw [List.drop_take] at hdrop
      have hp : l <+: (h.drop s.length).take (hlen - s.length) := by
        rw [hdrop]
        exact List.prefix_append l t
      exact List.isPrefixOf_iff_prefix.mpr (hp.trans (List.take_prefix _ _))

/-- Literal patterns reduce to substring search in the character-level
model: a pattern of literal characters only (none of the eight special
characters) parses to the Sequence of its Char atoms with no anchors, and the
containment check returns Ok(true) exactly when the pattern occurs as a
contiguous substring of the newline-trimmed haystack. -/
theorem literal_substring_model (p h : List Char) (hp : ∀ c ∈ p, c ∉ specials) :
    ∃ pat, RegexPattern.parse p = .ok pat ∧
      (Returns pat h (.ok true) ↔ p <:+: h.take (len_no_newline h)) := by
  obtain ⟨hs1, hs2⟩ := strip_literal p hp
  have hparse : RegexPattern.parse p = .ok ⟨false, false, .sequence (p.map .char)⟩ := by
    rw [parse_eq, hs1, hs2]
    rw [parse_sequence_literal p (parse_fuel p) [] hp (by simp [parse_fuel]; omega)]
    simp
  refine ⟨_, hparse, ?_⟩
  constructor
  · rintro ⟨fuel, hfuel⟩
    have hms := min_size_literal p
    by_cases hgt : p.length > len_no_newline h
    · rw [is_contained_in_prune fuel _ h p.length hms hgt] at hfuel
      simp at hfuel
    · rw [is_contained_in_scan fuel _ h p.length hms hgt rfl] at hfuel
      obtain ⟨i, hi, hacc, _⟩ := (scan_loop_true_iff _ _ _ _ _ _ 0).mp hfuel
      obtain ⟨n, hmn, _⟩ := hacc
      rw [Nat.zero_add] at hmn
      have hmono := matchesM_mono (le_max_left fuel (p.length + 2)) _ _ _ hmn
      rw [matchesM_literal p (max fuel (p.length + 2)) (h.drop i) (le_max_right _ _)] at hmono
      by_cases hpre : p.isPrefixOf (h.drop i) = true
      · exact (exists_prefix_iff_substring p h (len_no_newline h) (len_no_newline_le h)
          (by omega)).mp ⟨i, hi, hpre⟩
      · rw [if_neg hpre] at hmono
        simp at hmono
  · intro hinf
    have hlen2 : (h.take (len_no_newline h)).length = len_no_newline h := by
      rw [List.length_take]
      have := len_no_newline_le h
      omega
    have hll : p.length ≤ len_no_newline h := by
      have := hinf.length_le
      rw [hlen2] at this
      exact this
    obtain ⟨k, hk, hpre⟩ := (exists_prefix_iff_substring p h (len_no_newline h)
      (len_no_newline_le h) hll).mpr hinf
    have hex : ∃ j, p.isPrefixOf (h.drop j) = true := ⟨k, hpre⟩
    refine ⟨p.length + 2, ?_⟩
    rw [is_contained_in_scan (p.length + 2) _ h p.length (min_size_literal p) (by omega) rfl]
    refine (scan_loop_true_iff _ _ _ _ _ _ 0).mpr
      ⟨Nat.find hex, ?_, ⟨p.length, ?_, ?_⟩, ?_⟩
    · have hfind := Nat.find_min' hex hpre
      omega
    · rw [Nat.zero_add]
      rw [matchesM_literal p (p.length + 2) (h.drop (Nat.find hex)) le_rfl]
      rw [Nat.find_spec hex]
      simp
    · intro hue
      simp at hue
    · intro j hj
      refine ⟨false, 0, ?_, Or.inl rfl⟩
      rw [Nat.zero_add]
      rw [matchesM_literal p (p.length + 2) (h.drop j) le_rfl]
      have hnp : ¬ p.isPrefixOf (h.drop j) = true := Nat.find_min hex hj
      rw [if_neg hnp]

/-- Number of bytes of the UTF-8 encoding of a character (what one character
contributes to the byte length a Rust &str slice index counts). -/
def utf8Size (c : Char) : Nat :=
  if c.val < 0x80 then 1 else if c.val < 0x800 then 2 else if c.val < 0x10000 then 3 else 4

/-- Byte length of the UTF-8 encoding of a string: what haystack.len() and the
slice positions of &haystack[offset..] are measured in. -/
def byteLen (s : List Char) : Nat := (s.map utf8Size).sum

/-- A byte index is a character boundary exactly when it is the byte length of
some prefix of the character sequence; Rust panics when a &str is sliced at an
index that is not one. -/
def IsCharBoundary (s : List Char) (i : Nat) : Prop := ∃ k, byteLen (s.take k) = i

/-- len_no_newline measured the way the source does, in bytes: the index
starts at the byte length and each trailing newline (one byte) decrements
it. -/
def len_no_newline_bytes (text : List Char) : Nat :=
  byteLen text - (text.reverse.takeWhile (fun c => c == '\n')).length

/-- C10: the slice positions of the scan are NOT always character boundaries.
For the pattern "aa" and the haystack "éaa": the pattern parses, its minimum
is 2, the byte-measured trimmed length is 4, so the Rust for loop ranges over
offsets 0, 1, 2; the match at offset 0 is rejected (the char-level matcher,
which coincides with the byte-level one at boundary 0, returns (false, 0)), so
the loop reaches offset 1 and slices &haystack[1..]; but byte index 1 falls
inside the two-byte character é and is not a boundary, so the slice panics.
The claim that all suffix positions are valid boundaries is false. -/
theorem C10_byte_boundary_bug :
    RegexPattern.parse ['a', 'a'] =
      .ok ⟨false, false, .sequence [.char 'a', .char 'a']⟩ ∧
    min_size (.sequence [.char 'a', .char 'a']) = .ok 2 ∧
    len_no_newline_bytes ['é', 'a', 'a'] = 4 ∧
    1 ≤ len_no_newline_bytes ['é', 'a', 'a'] - 2 ∧
    matchesM 10 (.sequence [.char 'a', .char 'a']) ['é', 'a', 'a'] =
      some (.ok (false, 0)) ∧
    ¬ IsCharBoundary ['é', 'a', 'a'] 1 := by
  refine ⟨rfl, rfl, by decide, by decide, rfl, ?_⟩
  rintro ⟨k, hk⟩
  rcases k with _ | _ | _ | k
  · exact absurd hk (by decide)
  · exact absurd hk (by decide)
  · exact absurd hk (by decide)
  · rw [List.take_of_length_le (by simp)] at hk
    exact absurd hk (by decide)

/-- On a string of single-byte characters the byte length is the character
count. -/
theorem byteLen_ascii (h : List Char) (ha : ∀ c ∈ h, utf8Size c = 1) :
    byteLen h = h.length := by
  induction h with
  | nil => rfl
  | cons c t ih =>
    rw [show byteLen (c :: t) = utf8Size c + byteLen t from rfl]
    rw [ha c (by simp), ih (fun x hx => ha x (by simp [hx]))]
    simp
    omega

/-- On a string of single-byte characters the byte-measured trimmed length of
the source equals the character-measured one of the model. -/
theorem len_no_newline_bytes_ascii (h : List Char) (ha : ∀ c ∈ h, utf8Size c = 1) :
    len_no_newline_bytes h = len_no_newline h := by
  unfold len_no_newline_bytes len_no_newline
  rw [byteLen_ascii h ha]

/-- On a string of single-byte characters every position up to the length is
a character boundary, so every slice the scan takes is valid. -/
theorem is_char_boundary_ascii (h : List Char) (ha : ∀ c ∈ h, utf8Size c = 1) :
    ∀ i, i ≤ h.length → IsCharBoundary h i := by
  intro i hi
  refine ⟨i, ?_⟩
  rw [byteLen_ascii (h.take i) (fun x hx => ha x (List.take_subset _ _ hx))]
  rw [List.length_take]
  omega

/-- Byte index 1 of the haystack "éaa" is not a character boundary: the
prefix byte lengths are 0, 2, 3, 4. -/
theorem not_char_boundary_eaa : ¬ IsCharBoundary ['é', 'a', 'a'] 1 := by
  rintro ⟨k, hk⟩
  rcases k with _ | _ | _ | k
  · exact absurd hk (by decide)
  · exact absurd hk (by decide)
  · exact absurd hk (by decide)
  · rw [List.take_of_length_le (by simp)] at hk
    exact absurd hk (by decide)

/-- C5 counterexample: on the pattern "aa" and the haystack "éaa" the
scan does NOT attempt exactly the offsets 0 through effective_length minus
min_size and return an Ok result.  The source measures the effective length in
bytes: it is 4, min_size is 2 and pruning does not fire, so the claimed
attempted range is 0, 1, 2; offset 0 is attempted and rejected (the matcher
returns (false, 0) there), and the offset-1 attempt slices &haystack[1..] at
byte 1, which is not a character boundary — the program panics and neither
attempts the remaining offset nor returns Ok.  The last two conjuncts show the
pruning threshold itself diverges between byte- and character-measured
lengths (on the haystack "é" they are 2 and 1), so the claim as stated
is not true of the program on every haystack. -/
theorem C5_counterexample :
    RegexPattern.parse ['a', 'a'] =
      .ok ⟨false, false, .sequence [.char 'a', .char 'a']⟩ ∧
    min_size (.sequence [.char 'a', .char 'a']) = .ok 2 ∧
    len_no_newline_bytes ['é', 'a', 'a'] = 4 ∧
    ¬ 2 > len_no_newline_bytes ['é', 'a', 'a'] ∧
    1 ≤ len_no_newline_bytes ['é', 'a', 'a'] - 2 ∧
    matchesM 10 (.sequence [.char 'a', .char 'a']) ['é', 'a', 'a'] =
      some (.ok (false, 0)) ∧
    ¬ IsCharBoundary ['é', 'a', 'a'] 1 ∧
    len_no_newline_bytes ['é'] = 2 ∧
    len_no_newline ['é'] = 1 :=
  ⟨rfl, rfl, by decide, by decide, by decide, rfl, not_char_boundary_eaa,
    by decide, by decide⟩

/-- C5 amended: the scan pruning and offset-range property restricted to
haystacks of single-byte characters, on which the byte indices the source
slices at coincide with character counts (first two conjuncts: the trimmed
lengths agree and every position is a character boundary, so no slice can
panic), making the character-level model faithful.  On that domain: a root
minimum above the trimmed length returns Ok(false) immediately without
attempting a match (any fuel, even 0), and otherwise, for an unanchored
start, the check returns Ok(true) exactly when some offset k between 0 and
trimmed length minus the minimum is accepted with every smaller offset
attempted and rejected — the increasing-order scan with first-accepted
short-circuit. -/
theorem C5_scan_pruning_ascii (pat : RegexPattern) (h : List Char) (fuel ms : Nat)
    (hms : min_size pat.sequence = .ok ms) (hascii : ∀ c ∈ h, utf8Size c = 1) :
    len_no_newline_bytes h = len_no_newline h ∧
    (∀ i, i ≤ h.length → IsCharBoundary h i) ∧
    (ms > len_no_newline h → RegexPattern.is_contained_in fuel pat h = some (.ok false)) ∧
    (pat.at_start = false → ms ≤ len_no_newline h →
      (RegexPattern.is_contained_in fuel pat h = some (.ok true) ↔
        ∃ k, k ≤ len_no_newline h - ms ∧
          AcceptedAt fuel pat.sequence pat.until_end h (len_no_newline h) k ∧
          ∀ j < k, RejectedAt fuel pat.sequence pat.until_end h (len_no_newline h) j)) := by
  obtain ⟨h1, h2⟩ := scan_pruning_model pat h fuel ms hms
  exact ⟨len_no_newline_bytes_ascii h hascii, is_char_boundary_ascii h hascii, h1, h2⟩

/-- Witness for the amended C5 statement at the pattern "a" and the ASCII
haystack "ba". -/
theorem C5_scan_pruning_ascii_witness :
    (min_size (RegexPattern.mk false false (.sequence [.char 'a'])).sequence = .ok 1 ∧
      (∀ c ∈ (['b', 'a'] : List Char), utf8Size c = 1)) ∧
    (len_no_newline_bytes ['b', 'a'] = len_no_newline ['b', 'a'] ∧
    (∀ i, i ≤ (['b', 'a'] : List Char).length → IsCharBoundary ['b', 'a'] i) ∧
    (1 > len_no_newline ['b', 'a'] →
      RegexPattern.is_contained_in 5 (RegexPattern.mk false false (.sequence [.char 'a']))
        ['b', 'a'] = some (.ok false)) ∧
    ((RegexPattern.mk false false (.sequence [.char 'a'])).at_start = false →
      1 ≤ len_no_newline ['b', 'a'] →
      (RegexPattern.is_contained_in 5 (RegexPattern.mk false false (.sequence [.char 'a']))
          ['b', 'a'] = some (.ok true) ↔
        ∃ k, k ≤ len_no_newline ['b', 'a'] - 1 ∧
          AcceptedAt 5 (RegexPattern.mk false false (.sequence [.char 'a'])).sequence
            (RegexPattern.mk false false (.sequence [.char 'a'])).until_end ['b', 'a']
            (len_no_newline ['b', 'a']) k ∧
          ∀ j < k, RejectedAt 5 (RegexPattern.mk false false (.sequence [.char 'a'])).sequence
            (RegexPattern.mk false false (.sequence [.char 'a'])).until_end ['b', 'a']
            (len_no_newline ['b', 'a']) j))) :=
  ⟨⟨rfl, by decide⟩, C5_scan_pruning_ascii (RegexPattern.mk false false (.sequence [.char 'a']))
    ['b', 'a'] 5 1 rfl (by decide)⟩

/-- C8 counterexample: on the literal pattern "aa" and the haystack "éaa"
the pattern IS a contiguous substring of the newline-trimmed haystack (the
source trims by bytes; nothing is trimmed here), so the claim demands that
is_contained_in return Ok(true); but the program does not return at all: the
byte-measured scan range is 0, 1, 2, the offset-0 attempt is rejected (the
matcher returns (false, 0)), and the offset-1 attempt slices &haystack[1..]
at byte 1, which is not a character boundary, so the program panics.  The
claim as stated is therefore not true of the program on every haystack. -/
theorem C8_counterexample :
    (∀ c ∈ (['a', 'a'] : List Char), c ∉ specials) ∧
    RegexPattern.parse ['a', 'a'] =
      .ok ⟨false, false, .sequence [.char 'a', .char 'a']⟩ ∧
    (['a', 'a'] : List Char) <:+:
      (['é', 'a', 'a'].take (len_no_newline_bytes ['é', 'a', 'a'])) ∧
    min_size (.sequence [.char 'a', .char 'a']) = .ok 2 ∧
    1 ≤ len_no_newline_bytes ['é', 'a', 'a'] - 2 ∧
    matchesM 10 (.sequence [.char 'a', .char 'a']) ['é', 'a', 'a'] =
      some (.ok (false, 0)) ∧
    ¬ IsCharBoundary ['é', 'a', 'a'] 1 :=
  ⟨by decide, rfl, ⟨['é'], [], rfl⟩, rfl, by decide, rfl, not_char_boundary_eaa⟩

/-- C8 amended: the literal-pattern substring property restricted to
haystacks of single-byte characters, on which the byte indices the source
slices at coincide with character counts (first two conjuncts: the trimmed
lengths agree and every position is a character boundary, so no slice can
panic), making the character-level model faithful.  On that domain a pattern
of literal characters only parses, and the containment check returns Ok(true)
exactly when the pattern occurs as a contiguous substring of the
newline-trimmed haystack. -/
theorem C8_literal_substring_ascii (p h : List Char) (hp : ∀ c ∈ p, c ∉ specials)
    (hascii : ∀ c ∈ h, utf8Size c = 1) :
    len_no_newline_bytes h = len_no_newline h ∧
    (∀ i, i ≤ h.length → IsCharBoundary h i) ∧
    ∃ pat, RegexPattern.parse p = .ok pat ∧
      (Returns pat h (.ok true) ↔ p <:+: h.take (len_no_newline h)) :=
  ⟨len_no_newline_bytes_ascii h hascii, is_char_boundary_ascii h hascii,
    literal_substring_model p h hp⟩

/-- Witness for the amended C8 statement at the pattern "cat" and the ASCII
haystack "the cat sat". -/
theorem C8_literal_substring_ascii_witness :
    ((∀ c ∈ (['c', 'a', 't'] : List Char), c ∉ specials) ∧
      (∀ c ∈ (['t', 'h', 'e', ' ', 'c', 'a', 't', ' ', 's', 'a', 't'] : List Char),
        utf8Size c = 1)) ∧
    (len_no_newline_bytes ['t', 'h', 'e', ' ', 'c', 'a', 't', ' ', 's', 'a', 't'] =
      len_no_newline ['t', 'h', 'e', ' ', 'c', 'a', 't', ' ', 's', 'a', 't'] ∧
    (∀ i, i ≤ (['t', 'h', 'e', ' ', 'c', 'a', 't', ' ', 's', 'a', 't'] : List Char).length →
      IsCharBoundary ['t', 'h', 'e', ' ', 'c', 'a', 't', ' ', 's', 'a', 't'] i) ∧
    ∃ pat, RegexPattern.parse ['c', 'a', 't'] = .ok pat ∧
      (Returns pat ['t', 'h', 'e', ' ', 'c', 'a', 't', ' ', 's', 'a', 't'] (.ok true) ↔
        ['c', 'a', 't'] <:+:
          (['t', 'h', 'e', ' ', 'c', 'a', 't', ' ', 's', 'a', 't'].take
            (len_no_newline ['t', 'h', 'e', ' ', 'c', 'a', 't', ' ', 's', 'a', 't'])))) :=
  ⟨⟨by decide, by decide⟩, C8_literal_substring_ascii ['c', 'a', 't']
    ['t', 'h', 'e', ' ', 'c', 'a', 't', ' ', 's', 'a', 't'] (by decide) (by decide)⟩

end Grep
